import Mathlib

/-
Verification development for the data collation and migration pipeline
(src/old-scripts/collate_and_migrate_data.py).

Modelling conventions:
- Python strings are modelled as lists of characters (`Str := List Char`), so
  that trimming, lowering and splitting can be reasoned about by list
  induction.  String literals of the source are written as explicit character
  lists.
- A CSV cell is either a present string or a missing value (pandas NaN); a
  column may also be absent from a row, modelled by `Option Cell`.
- `str()` conversion follows Python: `str(nan) = "nan"`, integers print in
  decimal.
- Machine floats are idealised: `float(s)` is modelled by an exact decimal
  parser `parsePyFloat` that distinguishes finite values (kept as their
  integer truncation, the only use the script makes of them), infinities and
  NaN.  Double rounding at the extreme magnitude boundary (about 1.8e308) is
  approximated by a decimal-digit threshold, and underscore separators and
  hexadecimal forms accepted by Python are not modelled.
- Database effects are explicit: reference tables are lists of rows, the
  destination store is a list of inserted records, and the success of a batch
  insert is an oracle parameter; a failed insert leaves the store unchanged
  (transaction rollback) exactly as `insert_batch` guarantees.
-/

namespace CMS

/-- Characters of a Python string. -/
abbrev Str := List Char

/-- Whitespace characters recognised by `str.strip()` and by the JSON parser
(space, tab, newline, carriage return). -/
def isWs (c : Char) : Bool :=
  c == ' ' || c == '\t' || c == '\n' || c == '\r'

/-- Right trim: drop trailing whitespace. -/
def trimR (s : Str) : Str := (s.reverse.dropWhile isWs).reverse

/-- Python `str.strip()`: drop leading and trailing whitespace. -/
def trim (s : Str) : Str := trimR (s.dropWhile isWs)

/-- Python `str.lower()` (ASCII view). -/
def toLowerStr (s : Str) : Str := s.map Char.toLower

/-- Characters stripped by `value.strip(chars)` with chars "\x7b\x7d" (the
curly brace characters) at line 468 of the source. -/
def isBrace (c : Char) : Bool := c == '{' || c == '}'

/-- Python `value.strip(braces)`: drop leading and trailing brace characters. -/
def stripBraces (s : Str) : Str :=
  ((s.dropWhile isBrace).reverse.dropWhile isBrace).reverse

/-- The characters of the Python string "nan". -/
def sNan : Str := ['n', 'a', 'n']

/-- Decimal rendering of an integer, as Python `str(int)` produces. -/
def pyIntStr (n : Int) : Str :=
  if n < 0 then '-' :: Nat.toDigits 10 n.natAbs else Nat.toDigits 10 n.toNat

/-- A scalar Python value as it occurs in a loaded DataFrame cell or as a
default argument: the float NaN, a string, or an integer. -/
inductive PyScalar where
  | nan : PyScalar
  | str (s : Str) : PyScalar
  | int (n : Int) : PyScalar
deriving DecidableEq, Repr

/-- A Python value reaching the row validators: a scalar, or (for direct
calls of the location validator) an already structured list of scalars.
Nested containers are not modelled. -/
inductive PyVal where
  | scalar (v : PyScalar) : PyVal
  | pylist (xs : List PyScalar) : PyVal
deriving DecidableEq, Repr

/-- Python `str()` of a scalar. -/
def scalarStr : PyScalar → Str
  | .nan => sNan
  | .str s => s
  | .int n => pyIntStr n

/-- Python `repr()` of a scalar, used only to render a list value. -/
def scalarRepr : PyScalar → Str
  | .nan => sNan
  | .str s => '\'' :: s ++ ['\'']
  | .int n => pyIntStr n

/-- Comma-space separated rendering of list elements. -/
def reprItems : List PyScalar → Str
  | [] => []
  | [x] => scalarRepr x
  | x :: xs => scalarRepr x ++ [',', ' '] ++ reprItems xs

/-- Python `str()` of a modelled value (lists render as their repr; this
branch is unreachable in the pipeline, where cells are scalars). -/
def pyStr : PyVal → Str
  | .scalar v => scalarStr v
  | .pylist xs => '[' :: reprItems xs ++ [']']

/-- Python truthiness of a scalar (`bool(nan) = True`). -/
def truthy : PyScalar → Bool
  | .nan => true
  | .str s => !s.isEmpty
  | .int n => n != 0

/-- `pd.isna` on a modelled value.  (On a Python list `pd.isna` is
elementwise; the scalar-level reading used by the source is modelled.) -/
def isNa : PyVal → Bool
  | .scalar .nan => true
  | _ => false

/-! ### Python float parsing (`float(str)`) and `int(float)` truncation -/

/-- Result of `float(s)`: a finite value remembered by its truncation toward
zero (the only use the source makes of it), an infinity (sign irrelevant:
`int()` raises OverflowError either way), or NaN. -/
inductive FloatV where
  | fin (i : Int) : FloatV
  | inf : FloatV
  | nanv : FloatV
deriving DecidableEq, Repr

/-- Digits read from the front of a string. -/
def readDigits (s : Str) : List Nat × Str :=
  ((s.takeWhile Char.isDigit).map (fun c => c.toNat - '0'.toNat),
   s.dropWhile Char.isDigit)

/-- Value of a big-endian digit list. -/
def natOfDigits (ds : List Nat) : Nat := ds.foldl (fun a d => a * 10 + d) 0

/-- Number of decimal digits of a natural number. -/
def digitCount (n : Nat) : Nat := (Nat.toDigits 10 n).length

/-- Truncation toward zero of `sign * n * 10 ^ scale`, with the decimal
overflow threshold of IEEE doubles approximated at 309 digits. -/
def mkFin (sign : Int) (n : Nat) (scale : Int) : FloatV :=
  if n = 0 then .fin 0
  else if (digitCount n : Int) + scale > 309 then .inf
  else if (digitCount n : Int) + scale ≤ 0 then .fin 0
  else if 0 ≤ scale then .fin (sign * (n * 10 ^ scale.toNat : Nat))
  else .fin (sign * ((n / 10 ^ (-scale).toNat : Nat)))

/-- Parse the decimal part (after sign removal, lowercased):
digits, optional fraction, optional exponent. -/
def parseDecimal (sign : Int) (t : Str) : Option FloatV :=
  let (ip, r1) := readDigits t
  let (fp, r2) :=
    match r1 with
    | '.' :: r => ((readDigits r).1, (readDigits r).2)
    | _ => ([], r1)
  if ip = [] ∧ fp = [] then none
  else
    let core := fun (e : Int) => mkFin sign (natOfDigits (ip ++ fp)) (e - (fp.length : Int))
    match r2 with
    | [] => some (core 0)
    | 'e' :: r3 =>
      let (es, r4) :=
        match r3 with
        | '+' :: r => ((1 : Int), r)
        | '-' :: r => ((-1 : Int), r)
        | r => ((1 : Int), r)
      let (ed, r5) := readDigits r4
      if ed = [] ∨ r5 ≠ [] then none else some (core (es * (natOfDigits ed : Int)))
    | _ => none

/-- Python `float(s)`: strip whitespace, optional sign, then an infinity,
NaN, or decimal literal (case-insensitive).  `none` models ValueError. -/
def parsePyFloat (s0 : Str) : Option FloatV :=
  let s1 := trim s0
  let (sign, s2) :=
    match s1 with
    | '+' :: r => ((1 : Int), r)
    | '-' :: r => ((-1 : Int), r)
    | r => ((1 : Int), r)
  let t := toLowerStr s2
  if t = ['i', 'n', 'f'] ∨ t = ['i', 'n', 'f', 'i', 'n', 'i', 't', 'y'] then some .inf
  else if t = sNan then some .nanv
  else parseDecimal sign t

/-! ### `_validate_inventory_quantity` -/

/-- The one uncaught exception class relevant to the model: `int()` of an
infinite float raises OverflowError, which the `except (ValueError,
TypeError)` clause at line 450 does not catch. -/
inductive PyErr where
  | overflowError : PyErr
deriving DecidableEq, Repr

deriving instance DecidableEq for Except

/-- Validation notes appended to the row-local `errors` list, and rejection
reasons returned by `validate_and_collate_row`.  Each constructor carries the
data interpolated into the corresponding Python message:
`invalidInventoryFormat v` is "Invalid inventory quantity format: {value}",
`negativeInventory` is "Inventory quantity cannot be negative",
`productIdRequired` is "Product ID is required",
`itemCodeRequired` is "Item code is required",
`missingMetadata` is "Missing metadata",
`missingPricing` is "Missing pricing data",
`unexpectedError e` is "Unexpected error collating row {i}: {e}". -/
inductive Note where
  | invalidInventoryFormat (v : PyVal) : Note
  | negativeInventory : Note
  | productIdRequired : Note
  | itemCodeRequired : Note
  | missingMetadata : Note
  | missingPricing : Note
  | unexpectedError (e : PyErr) : Note
deriving DecidableEq, Repr

/-- `DataCollator._validate_inventory_quantity` (lines 440-452).  Returns the
validated quantity together with the notes appended to `errors`; an
`Except.error` models an uncaught exception escaping the function. -/
def validateInventoryQuantity (value : PyVal) : Except PyErr (Int × List Note) :=
  if isNa value then .ok (0, [])
  else if value = .scalar (.str []) then .ok (0, [])
  else if trim (pyStr value) = [] then .ok (0, [])
  else
    match parsePyFloat (pyStr value) with
    | none => .ok (0, [.invalidInventoryFormat value])
    | some .nanv => .ok (0, [.invalidInventoryFormat value])
    | some .inf => .error .overflowError
    | some (.fin i) =>
      if i < 0 then .ok (0, [.negativeInventory]) else .ok (i, [])

/-! ### JSON array parsing (the `json.loads` call at line 472)

The source only consumes the parse result when it is a list, which is always
the case for a JSON text beginning with a bracket.  The model parses arrays
whose elements are strings (with the common escapes), integers, booleans and
null; floats, nested containers and unicode escapes are not modelled (their
parse falls through to the comma-separated branch, as a JSON error would). -/

/-- A parsed JSON array element. -/
inductive JVal where
  | jstr (s : Str) : JVal
  | jint (n : Int) : JVal
  | jbool (b : Bool) : JVal
  | jnull : JVal
deriving DecidableEq, Repr

/-- Python truthiness of a parsed JSON element. -/
def jvalTruthy : JVal → Bool
  | .jstr s => !s.isEmpty
  | .jint n => n != 0
  | .jbool b => b
  | .jnull => false

/-- Python `str()` of a parsed JSON element. -/
def jvalStr : JVal → Str
  | .jstr s => s
  | .jint n => pyIntStr n
  | .jbool true => ['T', 'r', 'u', 'e']
  | .jbool false => ['F', 'a', 'l', 's', 'e']
  | .jnull => ['N', 'o', 'n', 'e']

/-- Drop leading JSON whitespace. -/
def skipWs (s : Str) : Str := s.dropWhile isWs

/-- JSON string escape resolution (the common single-character escapes). -/
def unescape (c : Char) : Option Char :=
  if c = '"' ∨ c = '\\' ∨ c = '/' then some c
  else if c = 'n' then some '\n'
  else if c = 't' then some '\t'
  else if c = 'r' then some '\r'
  else none

/-- Body of a JSON string after the opening quote: characters up to the
closing quote, resolving escapes. -/
def parseJStringBody : Str → Option (Str × Str)
  | [] => none
  | c :: rest =>
    if c = '"' then some ([], rest)
    else if c = '\\' then
      match rest with
      | [] => none
      | e :: rest2 =>
        match unescape e, parseJStringBody rest2 with
        | some u, some (t, r) => some (u :: t, r)
        | _, _ => none
    else
      match parseJStringBody rest with
      | some (t, r) => some (c :: t, r)
      | none => none

/-- A JSON integer literal (no leading zeros, no fraction or exponent). -/
def parseJNat (s : Str) : Option (Nat × Str) :=
  let ds := s.takeWhile Char.isDigit
  let r := s.dropWhile Char.isDigit
  if ds = [] then none
  else if 2 ≤ ds.length ∧ ds.head? = some '0' then none
  else
    match r with
    | '.' :: _ => none
    | 'e' :: _ => none
    | 'E' :: _ => none
    | _ => some (natOfDigits (ds.map (fun c => c.toNat - '0'.toNat)), r)

/-- One JSON value at the head of the input. -/
def parseJVal (s : Str) : Option (JVal × Str) :=
  match s with
  | '"' :: r =>
    match parseJStringBody r with
    | some (t, rest) => some (.jstr t, rest)
    | none => none
  | 't' :: 'r' :: 'u' :: 'e' :: r => some (.jbool true, r)
  | 'f' :: 'a' :: 'l' :: 's' :: 'e' :: r => some (.jbool false, r)
  | 'n' :: 'u' :: 'l' :: 'l' :: r => some (.jnull, r)
  | '-' :: r =>
    match parseJNat r with
    | some (n, rest) => some (.jint (-(n : Int)), rest)
    | none => none
  | c :: _ =>
    if c.isDigit then
      match parseJNat s with
      | some (n, rest) => some (.jint (n : Int), rest)
      | none => none
    else none
  | [] => none

/-- Comma-separated JSON values up to the closing bracket. -/
def parseJItems : Nat → Str → Option (List JVal × Str)
  | 0, _ => none
  | fuel + 1, s =>
    match parseJVal s with
    | none => none
    | some (v, r1) =>
      match skipWs r1 with
      | ',' :: r3 =>
        match parseJItems fuel (skipWs r3) with
        | some (vs, r) => some (v :: vs, r)
        | none => none
      | ']' :: r3 => some ([v], r3)
      | _ => none

/-- `json.loads` restricted to a top-level array (the input is already known
to begin with a bracket); `none` models `json.JSONDecodeError`. -/
def jsonParseArray (s : Str) : Option (List JVal) :=
  match s with
  | '[' :: r =>
    match skipWs r with
    | ']' :: r2 => if skipWs r2 = [] then some [] else none
    | r1 =>
      match parseJItems s.length r1 with
      | some (vs, rest) => if skipWs rest = [] then some vs else none
      | none => none
  | _ => none

/-! ### `_validate_location_array` -/

/-- Python `s.split(sep)` for a one-character separator. -/
def splitComma : Str → List Str
  | [] => [[]]
  | c :: r =>
    if c = ',' then [] :: splitComma r
    else
      match splitComma r with
      | [] => [[c]]
      | h :: t => (c :: h) :: t

/-- The string branch of `_validate_location_array` after the surrounding
whitespace and brace delimiters have been stripped (lines 470-482): try the
JSON-array parse, else split on commas, else a single bare token. -/
def locAfterStrip (s2 : Str) : Option (List Str) :=
  let jsonRes : Option (List Str) :=
    if s2.head? = some '[' ∧ s2.getLast? = some ']' then
      match jsonParseArray s2 with
      | some l =>
        some (l.filterMap fun loc =>
          if jvalTruthy loc ∧ trim (jvalStr loc) ≠ [] then some (trim (jvalStr loc)) else none)
      | none => none
    else none
  match jsonRes with
  | some r => some r
  | none =>
    if s2.contains ',' then
      some ((splitComma s2).filterMap fun p => if trim p ≠ [] then some (trim p) else none)
    else if trim s2 ≠ [] then some [trim s2] else none

/-- `DataCollator._validate_location_array` (lines 454-489).  Returns the
normalized location (`none` models the Python `None`).  The `except` clause
appending "Invalid location format" is unreachable for the modelled value
domain, so no notes are produced. -/
def validateLocationArray (value : PyVal) : Option (List Str) :=
  if isNa value then none
  else if value = .scalar (.str []) then none
  else if value = .scalar (.str sNan) then none
  else
    match value with
    | .pylist xs =>
      some (xs.filterMap fun loc =>
        if truthy loc ∧ trim (scalarStr loc) ≠ [] then some (trim (scalarStr loc)) else none)
    | .scalar (.str s0) => locAfterStrip (stripBraces (trim s0))
    | .scalar (.int n) =>
      if trim (pyIntStr n) ≠ [] then some [trim (pyIntStr n)] else none
    | .scalar .nan => none

/-! ### Python dictionaries as association lists (insertion order, with
in-place overwrite on an existing key, as CPython guarantees) -/

/-- Dictionary assignment `d[k] = v`. -/
def dinsert {α : Type} (k : Str) (v : α) : List (Str × α) → List (Str × α)
  | [] => [(k, v)]
  | (k', v') :: t => if k' = k then (k, v) :: t else (k', v') :: dinsert k v t

/-- Dictionary lookup `d.get(k)`. -/
def dlookup {α : Type} (k : Str) : List (Str × α) → Option α
  | [] => none
  | (k', v') :: t => if k' = k then some v' else dlookup k t

/-! ### Reference tables and resolvers -/

/-- A row of `original_all_products`.  Only `name` and `fulfilled_by` are
read individually by the collation; the other descriptive columns are copied
verbatim into the merged record and are abstracted into `payload`. -/
structure MetaRec where
  product_id : Str
  name : Option Str
  fulfilled_by : Option Str
  payload : Str
deriving DecidableEq, Repr

/-- `DataCollator.get_metadata_batch` (lines 186-224): the rows matching
`product_id = ANY(ids)`, keyed by product id (later rows overwrite). -/
def getMetadataBatch (product_ids : List Str) (table : List MetaRec) : List (Str × MetaRec) :=
  if product_ids = [] then []
  else
    (table.filter fun m => product_ids.contains m.product_id).foldl
      (fun d m => dinsert m.product_id m d) []

/-- A row of `distributor_master_list`.  Numeric columns carry their value
(Decimal) as an integer scale-free stand-in; `none` is SQL NULL. -/
structure PriceRow where
  item_code : Option Str
  original_item_code : Option Str
  mrp : Option Int
  purchase_rate : Option Int
  gst_rate : Option Int
  plazza_selling_price_incl_gst : Option Int
  effective_customer_discount : Option Int
  distributor : Option Str
  hsn_code : Option Str
deriving DecidableEq, Repr

/-- The price record built for a matched row: `float(x) if x else None`
turns both NULL and a zero value into None. -/
structure PriceDetails where
  distributor_mrp : Option Int
  purchase_rate : Option Int
  gst_rate : Option Int
  plazza_selling_price_incl_gst : Option Int
  effective_customer_discount : Option Int
  distributor : Option Str
  hsn_code : Option Str
deriving DecidableEq, Repr

/-- `float(x) if x else None`: drops NULL and falsy zero. -/
def numOrNone (x : Option Int) : Option Int :=
  match x with
  | some n => if n = 0 then none else some n
  | none => none

/-- The dictionary built per matched row at lines 265-273. -/
def priceRec (r : PriceRow) : PriceDetails :=
  ⟨numOrNone r.mrp, numOrNone r.purchase_rate, numOrNone r.gst_rate,
   numOrNone r.plazza_selling_price_incl_gst, numOrNone r.effective_customer_discount,
   r.distributor, r.hsn_code⟩

/-- One iteration of the `code_mapping` loop (lines 234-239): a code with a
non-empty trim is filed under its lowercase form (later codes overwrite) and
its lowercase form is appended to `lowercase_codes`. -/
def codeMapStep (acc : List (Str × Str) × List Str) (code : Str) :
    List (Str × Str) × List Str :=
  if trim code ≠ [] then
    (dinsert (toLowerStr (trim code)) (trim code) acc.1,
     acc.2 ++ [toLowerStr (trim code)])
  else acc

/-- The `code_mapping` dict and `lowercase_codes` list of
`get_price_details_batch` (lines 232-239). -/
def buildCodeMapping (item_codes : List Str) : List (Str × Str) × List Str :=
  item_codes.foldl codeMapStep ([], [])

/-- SQL `LOWER(col) = ANY(codes)` for a nullable column. -/
def optLowMem (f : Option Str) (lows : List Str) : Bool :=
  match f with
  | some t => lows.contains (toLowerStr t)
  | none => false

/-- The WHERE clause of the price query (line 249). -/
def sqlPriceMatch (lows : List Str) (r : PriceRow) : Bool :=
  optLowMem r.item_code lows || optLowMem r.original_item_code lows

/-- One `code_field` iteration of the loop at lines 261-273: if the column is
non-null and truthy and its lowercase is a requested key, file the row's
record under the caller's original-cased code. -/
def assignField (mapping : List (Str × Str)) (r : PriceRow) (fld : Option Str)
    (d : List (Str × PriceDetails)) : List (Str × PriceDetails) :=
  match fld with
  | some t =>
    if t ≠ [] then
      match dlookup (toLowerStr t) mapping with
      | some orig => dinsert orig (priceRec r) d
      | none => d
    else d
  | none => d

/-- Both `code_field` iterations for one result row (`item_code` first). -/
def processPriceRow (mapping : List (Str × Str)) (d : List (Str × PriceDetails))
    (r : PriceRow) : List (Str × PriceDetails) :=
  assignField mapping r r.original_item_code (assignField mapping r r.item_code d)

/-- `DataCollator.get_price_details_batch` (lines 226-281). -/
def getPriceDetailsBatch (item_codes : List Str) (table : List PriceRow) :
    List (Str × PriceDetails) :=
  if item_codes = [] then []
  else if (buildCodeMapping item_codes).2 = [] then []
  else
    (table.filter (sqlPriceMatch (buildCodeMapping item_codes).2)).foldl
      (processPriceRow (buildCodeMapping item_codes).1) []

/-! ### Input rows and the merged record -/

/-- A loaded CSV cell: a present string, or a missing value (pandas NaN;
`load_csv` maps '', NULL, null, None and nan spellings to NaN). -/
inductive Cell where
  | nan : Cell
  | str (s : Str) : Cell
deriving DecidableEq, Repr

/-- The cell as the Python value `row.get(...)` yields. -/
def cellVal : Cell → PyVal
  | .nan => .scalar .nan
  | .str s => .scalar (.str s)

/-- An input row restricted to the columns the pipeline reads.  `none`
models a column absent from the file. -/
structure Row where
  product_id : Option Cell
  item_code : Option Cell
  storeInventory : Option Cell
  location : Option Cell
deriving DecidableEq, Repr

/-- `row.get(key, '')` for the identifier and location columns. -/
def rowGetStrDefault (c : Option Cell) : PyVal :=
  match c with
  | none => .scalar (.str [])
  | some c => cellVal c

/-- `row.get('Store Inventory', 0)`. -/
def rowGetInv (c : Option Cell) : PyVal :=
  match c with
  | none => .scalar (.int 0)
  | some c => cellVal c

/-- `str(row.get('product_id', '')).strip()` — the same computation as the
chunk-level `astype(str).str.strip()` at line 609. -/
def pidOf (r : Row) : Str := trim (pyStr (rowGetStrDefault r.product_id))

/-- `str(row.get('item_code', '')).strip()` (also line 610). -/
def codeOf (r : Row) : Str := trim (pyStr (rowGetStrDefault r.item_code))

/-- The merged record inserted into `catalogue`.  The ~45 descriptive
columns copied verbatim from the metadata record are carried as `payload`;
the constant fields (timestamps, the five null JSONB slots, the null
category fields) are omitted as they carry no information. -/
structure CatRec where
  product_id : Str
  dist_item_code : Str
  name : Option Str
  fulfilled_by : Option Str
  payload : Str
  inventory_quantity : Int
  location : Option (List Str)
  price : PriceDetails
deriving DecidableEq, Repr

/-- Result of `validate_and_collate_row`: `(True, collated)` or
`(False, erros/data)`; a rejection for accumulated normalization notes
carries the fully collated data (line 431), the earlier rejections do not. -/
inductive RowResult where
  | accepted (rec : CatRec) : RowResult
  | rejected (errors : List Note) (data : Option CatRec) : RowResult
deriving DecidableEq, Repr

/-- Whether the row was accepted. -/
def isAccepted : RowResult → Bool
  | .accepted _ => true
  | .rejected _ _ => false

/-- `DataCollator.validate_and_collate_row` (lines 283-438). -/
def validateAndCollateRow (row : Row) (metadata : List (Str × MetaRec))
    (price_details : List (Str × PriceDetails)) : RowResult :=
  let product_id := pidOf row
  let item_code := codeOf row
  if product_id = [] then .rejected [.productIdRequired] none
  else if item_code = [] then .rejected [.itemCodeRequired] none
  else
    match dlookup product_id metadata with
    | none => .rejected [.missingMetadata] none
    | some product_metadata =>
      match dlookup item_code price_details with
      | none => .rejected [.missingPricing] none
      | some pricing_data =>
        match validateInventoryQuantity (rowGetInv row.storeInventory) with
        | .error e => .rejected [.unexpectedError e] none
        | .ok (inventory_quantity, errors) =>
          let location := validateLocationArray (rowGetStrDefault row.location)
          let collated : CatRec :=
            ⟨product_id, item_code, product_metadata.name, product_metadata.fulfilled_by,
             product_metadata.payload, inventory_quantity, location, pricing_data⟩
          if errors ≠ [] then .rejected errors (some collated) else .accepted collated

/-! ### The orchestrator `collate_and_migrate` -/

/-- Run-level errors appended to `results['errors']`:
`duplicateIdsFound` is "Found duplicate product IDs in CSV: {...}",
`failedInsertBatch n` is "Failed to insert batch {n}". -/
inductive RunError where
  | duplicateIdsFound : RunError
  | failedInsertBatch (n : Nat) : RunError
deriving DecidableEq, Repr

/-- Mutable state threaded through the chunk loop: the destination store,
the two counters, `batch_count`, and the run error list. -/
structure OrchState where
  db : List CatRec
  successful_inserts : Nat
  validation_failures : Nat
  batch_count : Nat
  errors : List RunError
deriving DecidableEq, Repr

/-- `DataCollator.check_duplicate_products` (lines 491-496) reports every
row whose `product_id` value occurs more than once (`keep=False`); this is
the length of the returned list. -/
def dupMarkedCount (df : List Row) : Nat :=
  (df.filter fun r =>
    2 ≤ df.countP (fun x => decide (x.product_id = r.product_id))).length

/-- Recursion core of the duplicate removal, with an explicit fuel bound by
the input length (the filtered tail is never longer than the tail). -/
def dedupeGo : Nat → List Row → List Row
  | _, [] => []
  | 0, _ => []
  | fuel + 1, r :: rs =>
    r :: dedupeGo fuel (rs.filter fun x => decide (x.product_id ≠ r.product_id))

/-- `df.drop_duplicates(subset=['product_id'], keep='first')` (line 588). -/
def dedupeRows (l : List Row) : List Row := dedupeGo l.length l

/-- `DataCollator.check_existing_products` (lines 498-515): product ids of
the catalogue rows whose id occurs among the queried values (a NaN query
value matches no text column). -/
def checkExistingProducts (db : List CatRec) (pids : List (Option Cell)) : List Str :=
  (db.filter fun c => pids.contains (some (Cell.str c.product_id))).map
    (fun c => c.product_id)

/-- `~df['product_id'].isin(existing)` (line 597). -/
def keepRow (existing : List Str) (r : Row) : Bool :=
  match r.product_id with
  | some (.str s) => !existing.contains s
  | _ => true

/-- Fixed-size chunking (`range(0, len(df), batch_size)`), with an explicit
fuel equal to the input length; meaningful for a positive chunk size. -/
def chunksGo (n : Nat) : Nat → List Row → List (List Row)
  | _, [] => []
  | 0, _ => []
  | fuel + 1, l => l.take n :: chunksGo n fuel (l.drop n)

/-- The successive `df_chunk` slices of the loop at line 604. -/
def chunksOf (n : Nat) (l : List Row) : List (List Row) := chunksGo n l.length l

/-- The chunk's metadata dictionary (lines 609, 615). -/
def chunkMeta (mt : List MetaRec) (chunk : List Row) : List (Str × MetaRec) :=
  getMetadataBatch (chunk.map pidOf) mt

/-- The chunk's price dictionary (lines 610-611, 616): the item codes are
trimmed and the empty and 'nan' strings are dropped before the query. -/
def chunkPrice (pt : List PriceRow) (chunk : List Row) : List (Str × PriceDetails) :=
  getPriceDetailsBatch
    ((chunk.map codeOf).filter fun c => decide (c ≠ []) && decide (c ≠ sNan)) pt

/-- The body of the row loop at lines 619-630: accumulate the accepted
record, or count the rejection. -/
def collateStep (M : List (Str × MetaRec)) (P : List (Str × PriceDetails))
    (acc : List CatRec × Nat) (r : Row) : List CatRec × Nat :=
  match validateAndCollateRow r M P with
  | .accepted rec => (acc.1 ++ [rec], acc.2)
  | .rejected _ _ => (acc.1, acc.2 + 1)

/-- The per-chunk validation loop (lines 619-630): the accepted collated
records in order, and the number of rejected rows. -/
def collateChunk (mt : List MetaRec) (pt : List PriceRow) (chunk : List Row) :
    List CatRec × Nat :=
  chunk.foldl (collateStep (chunkMeta mt chunk) (chunkPrice pt chunk)) ([], 0)

/-- `DataCollator.insert_batch` (lines 517-553): one atomic multi-row
insert.  The oracle decides whether the transaction commits; on failure the
rollback leaves the store unchanged and `False` is returned. -/
def insertBatch (oracle : List CatRec → List CatRec → Bool) (db : List CatRec)
    (valid_data : List CatRec) : List CatRec × Bool :=
  if oracle db valid_data then (db ++ valid_data, true) else (db, false)

/-- One iteration of the chunk loop (lines 604-641). -/
def processChunk (mt : List MetaRec) (pt : List PriceRow)
    (oracle : List CatRec → List CatRec → Bool) (st : OrchState) (chunk : List Row) :
    OrchState :=
  let vd := collateChunk mt pt chunk
  let st1 : OrchState :=
    ⟨st.db, st.successful_inserts, st.validation_failures + vd.2, st.batch_count, st.errors⟩
  if vd.1 = [] then st1
  else
    match insertBatch oracle st1.db vd.1 with
    | (db', true) =>
      ⟨db', st1.successful_inserts + vd.1.length, st1.validation_failures,
       st1.batch_count + 1, st1.errors⟩
    | (db', false) =>
      ⟨db', st1.successful_inserts, st1.validation_failures, st1.batch_count,
       st1.errors ++ [.failedInsertBatch (st1.batch_count + 1)]⟩

/-- The run summary counters (`results` of `collate_and_migrate`). -/
structure RunResults where
  total_rows : Nat
  successful_inserts : Nat
  validation_failures : Nat
  duplicate_failures : Nat
  existing_products : Nat
  errors : List RunError
deriving DecidableEq, Repr

/-- `DataCollator.collate_and_migrate` (lines 555-669) from the point where
the CSV is loaded and both connections are up: duplicate detection and
removal, existing-product filtering, chunked collation and insertion.
Returns the summary and the final destination store. -/
def collateAndMigrate (df : List Row) (mt : List MetaRec) (pt : List PriceRow)
    (oracle : List CatRec → List CatRec → Bool) (db0 : List CatRec)
    (batch_size : Nat) : RunResults × List CatRec :=
  let total := df.length
  let dupCount := dupMarkedCount df
  let errs0 : List RunError := if dupCount ≠ 0 then [.duplicateIdsFound] else []
  let d1 := if dupCount ≠ 0 then dedupeRows df else df
  let existing := checkExistingProducts db0 (d1.map (fun r => r.product_id))
  let d2 := d1.filter (keepRow existing)
  let final := (chunksOf batch_size d2).foldl (processChunk mt pt oracle) ⟨db0, 0, 0, 0, errs0⟩
  (⟨total, final.successful_inserts, final.validation_failures, dupCount,
    existing.length, final.errors⟩, final.db)

/-! ## Lemma toolbox: trimming and character membership -/

theorem dropWhile_all {p : Char → Bool} {l : Str} (h : ∀ c ∈ l, p c = false) :
    l.dropWhile p = l := by
  induction l with
  | nil => rfl
  | cons c t ih =>
    rw [List.dropWhile_cons, h c (List.mem_cons_self c t)]
    simp only [Bool.false_eq_true, if_false]

theorem dropWhile_head_neg {p : Char → Bool} {l : Str} {c : Char}
    (h : l.head? = some c) (hc : p c = false) : l.dropWhile p = l := by
  cases l with
  | nil => rfl
  | cons a t =>
    simp only [List.head?_cons, Option.some.injEq] at h
    subst h
    rw [List.dropWhile_cons, hc]
    simp only [Bool.false_eq_true, if_false]

theorem dropWhile_idem {p : Char → Bool} (l : Str) :
    (l.dropWhile p).dropWhile p = l.dropWhile p := by
  induction l with
  | nil => rfl
  | cons c t ih =>
    rw [List.dropWhile_cons]
    by_cases h : p c = true
    · rw [if_pos h]; exact ih
    · rw [if_neg h, List.dropWhile_cons, if_neg h]

theorem mem_dropWhile {p : Char → Bool} {l : Str} {c : Char}
    (h : c ∈ l.dropWhile p) : c ∈ l :=
  (List.dropWhile_sublist p).mem h

theorem mem_trim {s : Str} {c : Char} (h : c ∈ trim s) : c ∈ s := by
  unfold trim trimR at h
  rw [List.mem_reverse] at h
  have h2 := mem_dropWhile h
  rw [List.mem_reverse] at h2
  exact mem_dropWhile h2

theorem trim_eq_self {s : Str} (h : ∀ c ∈ s, isWs c = false) : trim s = s := by
  unfold trim trimR
  rw [dropWhile_all h, dropWhile_all (fun c hc => h c (List.mem_reverse.mp hc)),
    List.reverse_reverse]

theorem stripBraces_eq_self {s : Str} (h : ∀ c ∈ s, isBrace c = false) :
    stripBraces s = s := by
  unfold stripBraces
  rw [dropWhile_all h, dropWhile_all (fun c hc => h c (List.mem_reverse.mp hc)),
    List.reverse_reverse]

theorem exists_prefix_dropWhile (p : Char → Bool) (l : Str) :
    ∃ t, l = t ++ l.dropWhile p := by
  induction l with
  | nil => exact ⟨[], rfl⟩
  | cons c t ih =>
    rw [List.dropWhile_cons]
    by_cases h : p c = true
    · rw [if_pos h]
      obtain ⟨u, hu⟩ := ih
      exact ⟨c :: u, by rw [List.cons_append, ← hu]⟩
    · rw [if_neg h]
      exact ⟨[], rfl⟩

theorem trimR_isPrefix (l : Str) : ∃ t, l = trimR l ++ t := by
  obtain ⟨u, hu⟩ := exists_prefix_dropWhile isWs l.reverse
  refine ⟨u.reverse, ?_⟩
  unfold trimR
  have := congrArg List.reverse hu
  rw [List.reverse_reverse, List.reverse_append] at this
  exact this

theorem dropWhile_trimR {l : Str} (h : l.dropWhile isWs = l) :
    (trimR l).dropWhile isWs = trimR l := by
  obtain ⟨t, ht⟩ := trimR_isPrefix l
  cases htr : trimR l with
  | nil => rfl
  | cons c y =>
    have hcl : l.head? = some c := by
      rw [ht, htr]; rfl
    have hc : isWs c = false := by
      by_contra hws
      rw [Bool.not_eq_false] at hws
      cases l with
      | nil => simp at hcl
      | cons a u =>
        simp only [List.head?_cons, Option.some.injEq] at hcl
        subst hcl
        rw [List.dropWhile_cons, if_pos hws] at h
        have := congrArg List.length h
        simp only [List.length_cons] at this
        have hle := List.length_filter_le (fun _ => true) u
        have := List.dropWhile_sublist (l := u) isWs |>.length_le
        omega
    exact dropWhile_head_neg (by rw [List.head?_cons]) hc

theorem trimR_idem (l : Str) : trimR (trimR l) = trimR l := by
  unfold trimR
  rw [List.reverse_reverse, dropWhile_idem]

theorem trim_trim (s : Str) : trim (trim s) = trim s := by
  unfold trim
  rw [dropWhile_trimR (dropWhile_idem s), trimR_idem]

/-! ## Claim C10: inventory quantity validation -/

/-- Claim C10, counterexample.  The claim states that
`_validate_inventory_quantity` returns without raising for every input; but
for the string "inf" Python computes `int(float("inf"))`, which raises
OverflowError — an exception class not caught by the
`except (ValueError, TypeError)` clause, so the call raises. -/
theorem c10_counterexample :
    validateInventoryQuantity (.scalar (.str ['i', 'n', 'f'])) = .error .overflowError := by
  decide

/-- Claim C10, amended.  For every input that does not parse to an infinite
float, `_validate_inventory_quantity` returns without raising and its result
is a non-negative integer (blank and unparseable input yield 0, negative
values are clamped to 0, other numeric values are truncated); an input
parsing to an infinity escapes with OverflowError. -/
theorem c10_amended (v : PyVal) (h : parsePyFloat (pyStr v) ≠ some .inf) :
    ∃ q ns, validateInventoryQuantity v = .ok (q, ns) ∧ 0 ≤ q := by
  unfold validateInventoryQuantity
  split
  · exact ⟨0, [], rfl, le_refl 0⟩
  · split
    · exact ⟨0, [], rfl, le_refl 0⟩
    · split
      · exact ⟨0, [], rfl, le_refl 0⟩
      · split
        · exact ⟨0, [.invalidInventoryFormat v], rfl, le_refl 0⟩
        · exact ⟨0, [.invalidInventoryFormat v], rfl, le_refl 0⟩
        · rename_i heq
          exact absurd heq h
        · rename_i i heq
          by_cases hi : i < 0
          · exact ⟨0, [.negativeInventory], by rw [if_pos hi], le_refl 0⟩
          · exact ⟨i, [], by rw [if_neg hi], le_of_not_lt hi⟩

/-- Claim C10, witness: the amended theorem applied to the unparseable
input "abc". -/
theorem c10_witness :
    parsePyFloat (pyStr (.scalar (.str ['a', 'b', 'c']))) ≠ some .inf ∧
      ∃ q ns, validateInventoryQuantity (.scalar (.str ['a', 'b', 'c'])) = .ok (q, ns) ∧ 0 ≤ q :=
  ⟨by decide, c10_amended (.scalar (.str ['a', 'b', 'c'])) (by decide)⟩

/-! ## Claim C9: location normalization shape -/

/-- Claim C9, counterexample.  The claim states the normalized location is
never an empty sequence; but the input "," reaches the comma-split branch,
both fragments trim to nothing, and the function returns an empty list
(similarly for the JSON literal "[]"). -/
theorem c9_counterexample :
    validateLocationArray (.scalar (.str [','])) = some [] ∧
      validateLocationArray (.scalar (.str ['[', ']'])) = some [] := by
  decide

theorem locAfterStrip_shape (s2 : Str) :
    locAfterStrip s2 = none ∨
      ∃ l, locAfterStrip s2 = some l ∧ ∀ t ∈ l, t ≠ [] ∧ trim t = t := by
  unfold locAfterStrip
  dsimp only
  split
  · rename_i r hr
    split at hr
    · split at hr
      · rename_i l _
        cases hr
        refine Or.inr ⟨_, rfl, ?_⟩
        intro t ht
        rw [List.mem_filterMap] at ht
        obtain ⟨loc, _, hf⟩ := ht
        split at hf
        · rename_i hcond
          cases hf
          exact ⟨hcond.2, trim_trim _⟩
        · cases hf
      · cases hr
    · cases hr
  · split
    · refine Or.inr ⟨_, rfl, ?_⟩
      intro t ht
      rw [List.mem_filterMap] at ht
      obtain ⟨p, _, hf⟩ := ht
      split at hf
      · rename_i hcond
        cases hf
        exact ⟨hcond, trim_trim _⟩
      · cases hf
    · split
      · rename_i hne
        exact Or.inr ⟨_, rfl, fun t ht => by
          rw [List.mem_singleton] at ht
          subst ht
          exact ⟨hne, trim_trim _⟩⟩
      · exact Or.inl rfl

/-- Claim C9, amended.  For every location input, normalization returns
without error, and the result is either the explicit no-location value or a
(possibly empty) sequence of trimmed, non-empty strings; the sequence is
empty exactly when every parsed element trims to nothing. -/
theorem c9_amended (v : PyVal) :
    validateLocationArray v = none ∨
      ∃ l, validateLocationArray v = some l ∧ ∀ t ∈ l, t ≠ [] ∧ trim t = t := by
  unfold validateLocationArray
  split
  · exact Or.inl rfl
  · split
    · exact Or.inl rfl
    · split
      · exact Or.inl rfl
      · split
        · rename_i xs
          refine Or.inr ⟨_, rfl, ?_⟩
          intro t ht
          rw [List.mem_filterMap] at ht
          obtain ⟨loc, _, hf⟩ := ht
          split at hf
          · rename_i hcond
            cases hf
            exact ⟨hcond.2, trim_trim _⟩
          · cases hf
        · rename_i s0
          exact locAfterStrip_shape _
        · rename_i n
          split
          · rename_i hne
            exact Or.inr ⟨_, rfl, fun t ht => by
              rw [List.mem_singleton] at ht
              subst ht
              exact ⟨hne, trim_trim _⟩⟩
          · exact Or.inl rfl
        · exact Or.inl rfl

/-! ## Claim C2: normalization notes and rejection -/

/-- Claim C2, counterexample.  A row with non-empty trimmed identifiers that
finds both a metadata record and a price record, but whose Store Inventory
is the unparseable string "abc", is rejected by `validate_and_collate_row`
(line 429 returns False whenever the `errors` list is non-empty), although
the claim states that normalization notes never by themselves reject. -/
theorem c2_counterexample :
    pidOf ⟨some (.str ['P']), some (.str ['X']), some (.str ['a', 'b', 'c']), none⟩ ≠ [] ∧
    codeOf ⟨some (.str ['P']), some (.str ['X']), some (.str ['a', 'b', 'c']), none⟩ ≠ [] ∧
    (dlookup ['P'] [(['P'], (⟨['P'], none, none, []⟩ : MetaRec))]).isSome = true ∧
    (dlookup ['X'] [(['X'], (⟨none, none, none, none, none, none, none⟩ : PriceDetails))]).isSome
      = true ∧
    isAccepted
      (validateAndCollateRow
        ⟨some (.str ['P']), some (.str ['X']), some (.str ['a', 'b', 'c']), none⟩
        [(['P'], ⟨['P'], none, none, []⟩)]
        [(['X'], ⟨none, none, none, none, none, none, none⟩)]) = false := by
  decide

/-- Claim C2, amended.  For every row whose trimmed identifiers are
non-empty and which finds both a metadata and a price record, the outcome is
decided by the inventory normalization alone (location normalization never
produces a note): with no notes the row is accepted; with notes (unparseable
or negative inventory) the row is rejected, carrying the notes and the fully
collated data; an infinite inventory value escapes as an unexpected error
and also rejects. -/
theorem c2_amended (row : Row) (M : List (Str × MetaRec)) (P : List (Str × PriceDetails))
    (m : MetaRec) (p : PriceDetails)
    (hpid : pidOf row ≠ []) (hcode : codeOf row ≠ [])
    (hm : dlookup (pidOf row) M = some m) (hp : dlookup (codeOf row) P = some p) :
    (∀ q, validateInventoryQuantity (rowGetInv row.storeInventory) = .ok (q, []) →
      validateAndCollateRow row M P = .accepted
        ⟨pidOf row, codeOf row, m.name, m.fulfilled_by, m.payload, q,
         validateLocationArray (rowGetStrDefault row.location), p⟩) ∧
    (∀ q ns, validateInventoryQuantity (rowGetInv row.storeInventory) = .ok (q, ns) → ns ≠ [] →
      validateAndCollateRow row M P = .rejected ns
        (some ⟨pidOf row, codeOf row, m.name, m.fulfilled_by, m.payload, q,
               validateLocationArray (rowGetStrDefault row.location), p⟩)) ∧
    (∀ e, validateInventoryQuantity (rowGetInv row.storeInventory) = .error e →
      validateAndCollateRow row M P = .rejected [.unexpectedError e] none) := by
  unfold validateAndCollateRow
  dsimp only
  rw [if_neg hpid, if_neg hcode, hm, hp]
  refine ⟨?_, ?_, ?_⟩
  · intro q hq
    rw [hq]
    dsimp only
    rw [if_neg (by simp)]
  · intro q ns hq hns
    rw [hq]
    dsimp only
    rw [if_pos hns]
  · intro e he
    rw [he]

/-- Claim C2, witness: the amended theorem at a concrete row whose
inventory is negative, showing the note rejects the row with data attached. -/
theorem c2_witness :
    validateAndCollateRow
        ⟨some (.str ['P']), some (.str ['X']), some (.str ['-', '4']), none⟩
        [(['P'], ⟨['P'], none, none, []⟩)]
        [(['X'], ⟨none, none, none, none, none, none, none⟩)] =
      .rejected [.negativeInventory]
        (some ⟨['P'], ['X'], none, none, [], 0, none,
               ⟨none, none, none, none, none, none, none⟩⟩) :=
  (c2_amended ⟨some (.str ['P']), some (.str ['X']), some (.str ['-', '4']), none⟩
      [(['P'], ⟨['P'], none, none, []⟩)]
      [(['X'], ⟨none, none, none, none, none, none, none⟩)]
      ⟨['P'], none, none, []⟩ ⟨none, none, none, none, none, none, none⟩
      (by decide) (by decide) (by decide) (by decide)).2.1 0 [.negativeInventory]
    (by decide) (by decide)

/-! ## Orchestrator bookkeeping lemmas -/

/-- The accepted records of a row list against fixed dictionaries. -/
def chunkRecs (M : List (Str × MetaRec)) (P : List (Str × PriceDetails))
    (rows : List Row) : List CatRec :=
  rows.filterMap fun r =>
    match validateAndCollateRow r M P with
    | .accepted rec => some rec
    | .rejected _ _ => none

/-- The number of rejected rows of a row list against fixed dictionaries. -/
def chunkRej (M : List (Str × MetaRec)) (P : List (Str × PriceDetails))
    (rows : List Row) : Nat :=
  rows.countP fun r => !isAccepted (validateAndCollateRow r M P)

theorem chunkRecs_cons (M : List (Str × MetaRec)) (P : List (Str × PriceDetails))
    (r : Row) (rows : List Row) :
    chunkRecs M P (r :: rows) =
      (match validateAndCollateRow r M P with
       | .accepted rec => [rec]
       | .rejected _ _ => []) ++ chunkRecs M P rows := by
  unfold chunkRecs
  rw [List.filterMap_cons]
  cases validateAndCollateRow r M P <;> simp

theorem chunkRej_cons (M : List (Str × MetaRec)) (P : List (Str × PriceDetails))
    (r : Row) (rows : List Row) :
    chunkRej M P (r :: rows) =
      chunkRej M P rows + (if isAccepted (validateAndCollateRow r M P) then 0 else 1) := by
  unfold chunkRej
  rw [List.countP_cons]
  cases h : validateAndCollateRow r M P <;> simp [isAccepted]

theorem collateFold (rows : List Row) (M : List (Str × MetaRec))
    (P : List (Str × PriceDetails)) (a : List CatRec × Nat) :
    rows.foldl (collateStep M P) a = (a.1 ++ chunkRecs M P rows, a.2 + chunkRej M P rows) := by
  induction rows generalizing a with
  | nil => simp [chunkRecs, chunkRej]
  | cons r rows ih =>
    rw [List.foldl_cons, chunkRecs_cons, chunkRej_cons]
    cases h : validateAndCollateRow r M P with
    | accepted rec =>
      have h1 : collateStep M P a r = (a.1 ++ [rec], a.2) := by
        unfold collateStep
        rw [h]
      have hif : (if isAccepted (RowResult.accepted rec) = true then 0 else 1) = 0 := rfl
      rw [h1, ih, Prod.mk.injEq, hif]
      refine ⟨by rw [List.append_assoc], ?_⟩
      omega
    | rejected ns d =>
      have h1 : collateStep M P a r = (a.1, a.2 + 1) := by
        unfold collateStep
        rw [h]
      have hif : (if isAccepted (RowResult.rejected ns d) = true then 0 else 1) = 1 := rfl
      rw [h1, ih, Prod.mk.injEq, hif]
      refine ⟨by simp, ?_⟩
      omega

theorem collateChunk_eq (mt : List MetaRec) (pt : List PriceRow) (chunk : List Row) :
    collateChunk mt pt chunk =
      (chunkRecs (chunkMeta mt chunk) (chunkPrice pt chunk) chunk,
       chunkRej (chunkMeta mt chunk) (chunkPrice pt chunk) chunk) := by
  unfold collateChunk
  rw [collateFold]
  simp

theorem chunkRecs_length_add (M : List (Str × MetaRec)) (P : List (Str × PriceDetails))
    (rows : List Row) :
    (chunkRecs M P rows).length + chunkRej M P rows = rows.length := by
  induction rows with
  | nil => rfl
  | cons r rows ih =>
    rw [chunkRecs_cons, chunkRej_cons, List.length_append, List.length_cons]
    cases validateAndCollateRow r M P with
    | accepted rec =>
      have hif : (if isAccepted (RowResult.accepted rec) = true then 0 else 1) = 0 := rfl
      rw [hif]
      have hlen : (match RowResult.accepted rec with
          | RowResult.accepted rec => [rec]
          | RowResult.rejected _ _ => ([] : List CatRec)).length = 1 := rfl
      rw [hlen]
      omega
    | rejected ns d =>
      have hif : (if isAccepted (RowResult.rejected ns d) = true then 0 else 1) = 1 := rfl
      rw [hif]
      have hlen : (match RowResult.rejected ns d with
          | RowResult.accepted rec => [rec]
          | RowResult.rejected _ _ => ([] : List CatRec)).length = 0 := rfl
      rw [hlen]
      omega

theorem chunkRecs_mem {M : List (Str × MetaRec)} {P : List (Str × PriceDetails)}
    {rows : List Row} {rec : CatRec} (h : rec ∈ chunkRecs M P rows) :
    ∃ r ∈ rows, validateAndCollateRow r M P = .accepted rec := by
  unfold chunkRecs at h
  rw [List.mem_filterMap] at h
  obtain ⟨r, hr, hf⟩ := h
  refine ⟨r, hr, ?_⟩
  cases hv : validateAndCollateRow r M P with
  | accepted rec' => rw [hv] at hf; cases hf; rfl
  | rejected ns d => rw [hv] at hf; cases hf

/-- The identifiers of an accepted record are the trimmed row identifiers,
which the guards at lines 294-300 force to be non-empty. -/
theorem accepted_ids {row : Row} {M : List (Str × MetaRec)} {P : List (Str × PriceDetails)}
    {rec : CatRec} (h : validateAndCollateRow row M P = .accepted rec) :
    rec.product_id = pidOf row ∧ rec.dist_item_code = codeOf row ∧
      pidOf row ≠ [] ∧ codeOf row ≠ [] := by
  unfold validateAndCollateRow at h
  dsimp only at h
  by_cases h1 : pidOf row = []
  · rw [if_pos h1] at h; cases h
  · rw [if_neg h1] at h
    by_cases h2 : codeOf row = []
    · rw [if_pos h2] at h; cases h
    · rw [if_neg h2] at h
      cases hm : dlookup (pidOf row) M with
      | none => rw [hm] at h; cases h
      | some m =>
        rw [hm] at h
        cases hp : dlookup (codeOf row) P with
        | none => rw [hp] at h; cases h
        | some p =>
          rw [hp] at h
          cases hi : validateInventoryQuantity (rowGetInv row.storeInventory) with
          | error e => rw [hi] at h; cases h
          | ok qe =>
            rw [hi] at h
            obtain ⟨q, ns⟩ := qe
            dsimp only at h
            by_cases hns : ns ≠ []
            · rw [if_pos hns] at h; cases h
            · rw [if_neg hns] at h
              cases h
              exact ⟨rfl, rfl, h1, h2⟩

theorem processChunk_db_mem {mt : List MetaRec} {pt : List PriceRow}
    {oracle : List CatRec → List CatRec → Bool} {st : OrchState} {chunk : List Row}
    {rec : CatRec} (h : rec ∈ (processChunk mt pt oracle st chunk).db) :
    rec ∈ st.db ∨ rec ∈ (collateChunk mt pt chunk).1 := by
  unfold processChunk insertBatch at h
  dsimp only at h
  split at h
  · exact Or.inl h
  · split at h
    · rename_i heq
      split at heq
      · cases heq
        dsimp only at h
        rcases List.mem_append.mp h with h' | h'
        · exact Or.inl h'
        · exact Or.inr h'
      · cases heq
    · rename_i heq
      split at heq
      · cases heq
      · cases heq
        exact Or.inl h

theorem foldChunks_db_mem {mt : List MetaRec} {pt : List PriceRow}
    {oracle : List CatRec → List CatRec → Bool} {rec : CatRec} :
    ∀ {cs : List (List Row)} {st : OrchState},
      rec ∈ (cs.foldl (processChunk mt pt oracle) st).db →
      rec ∈ st.db ∨ ∃ c ∈ cs, rec ∈ (collateChunk mt pt c).1 := by
  intro cs
  induction cs with
  | nil => intro st h; exact Or.inl h
  | cons c cs ih =>
    intro st h
    rw [List.foldl_cons] at h
    rcases ih h with h' | h'
    · rcases processChunk_db_mem h' with h'' | h''
      · exact Or.inl h''
      · exact Or.inr ⟨c, List.mem_cons_self c cs, h''⟩
    · obtain ⟨c', hc', hm⟩ := h'
      exact Or.inr ⟨c', List.mem_cons_of_mem c hc', hm⟩

/-! ## Claim C8: missing identifiers -/

/-- Claim C8, counterexample.  A row whose product_id cell is a missing
value (pandas NaN) stringifies to "nan", which is non-empty, so the
missing-identifier guard does not fire; the row is instead rejected by the
metadata lookup, with reason Missing metadata rather than the
missing-required-identifier reason the claim requires. -/
theorem c8_counterexample :
    validateAndCollateRow ⟨some .nan, some (.str ['X']), none, none⟩ [] [] =
        .rejected [.missingMetadata] none ∧
      pidOf ⟨some .nan, some (.str ['X']), none, none⟩ = ['n', 'a', 'n'] := by
  decide

/-- Claim C8, amended.  Every row whose product_id (resp. item_code)
stringifies and trims to the empty string — an absent column or a blank
string cell, but not a NaN cell, which stringifies to "nan" — is rejected
with the corresponding required-identifier reason; and every record ever
present in the destination store either predates the run or carries
non-empty trimmed identifiers, so such rows never reach the writer. -/
theorem c8_amended :
    (∀ (row : Row) (M : List (Str × MetaRec)) (P : List (Str × PriceDetails)),
      pidOf row = [] →
      validateAndCollateRow row M P = .rejected [.productIdRequired] none) ∧
    (∀ (row : Row) (M : List (Str × MetaRec)) (P : List (Str × PriceDetails)),
      pidOf row ≠ [] → codeOf row = [] →
      validateAndCollateRow row M P = .rejected [.itemCodeRequired] none) ∧
    (∀ (df : List Row) (mt : List MetaRec) (pt : List PriceRow)
      (oracle : List CatRec → List CatRec → Bool) (db0 : List CatRec) (n : Nat)
      (rec : CatRec), rec ∈ (collateAndMigrate df mt pt oracle db0 n).2 →
      rec ∈ db0 ∨ (rec.product_id ≠ [] ∧ rec.dist_item_code ≠ [])) := by
  refine ⟨?_, ?_, ?_⟩
  · intro row M P h1
    unfold validateAndCollateRow
    dsimp only
    rw [if_pos h1]
  · intro row M P h1 h2
    unfold validateAndCollateRow
    dsimp only
    rw [if_neg h1, if_pos h2]
  · intro df mt pt oracle db0 n rec h
    unfold collateAndMigrate at h
    dsimp only at h
    rcases foldChunks_db_mem h with h' | h'
    · exact Or.inl h'
    · obtain ⟨c, _, hm⟩ := h'
      rw [collateChunk_eq] at hm
      obtain ⟨r, _, hv⟩ := chunkRecs_mem hm
      obtain ⟨e1, e2, e3, e4⟩ := accepted_ids hv
      exact Or.inr ⟨by rw [e1]; exact e3, by rw [e2]; exact e4⟩

/-- Claim C8, witness: the amended theorem's identifier clauses applied to a
row with a blank product_id and to one with a blank item_code. -/
theorem c8_witness :
    validateAndCollateRow ⟨some (.str [' ']), some (.str ['X']), none, none⟩ [] [] =
        .rejected [.productIdRequired] none ∧
      validateAndCollateRow ⟨some (.str ['P']), none, none, none⟩ [] [] =
        .rejected [.itemCodeRequired] none :=
  ⟨c8_amended.1 ⟨some (.str [' ']), some (.str ['X']), none, none⟩ [] [] (by decide),
   c8_amended.2.1 ⟨some (.str ['P']), none, none, none⟩ [] [] (by decide) (by decide)⟩

/-! ## Claim C3: failed batch inserts roll back, are recorded, and the run
continues -/

theorem processChunk_fail_all (mt : List MetaRec) (pt : List PriceRow)
    {oracle : List CatRec → List CatRec → Bool}
    (hfail : ∀ db b, oracle db b = false) (st : OrchState) (chunk : List Row) :
    (processChunk mt pt oracle st chunk).db = st.db ∧
      (processChunk mt pt oracle st chunk).successful_inserts = st.successful_inserts := by
  unfold processChunk insertBatch
  dsimp only
  split
  · exact ⟨rfl, rfl⟩
  · rw [hfail]
    simp only [Bool.false_eq_true, if_false]
    exact ⟨trivial, trivial⟩

theorem foldChunks_fail_all (mt : List MetaRec) (pt : List PriceRow)
    {oracle : List CatRec → List CatRec → Bool}
    (hfail : ∀ db b, oracle db b = false) :
    ∀ (cs : List (List Row)) (st : OrchState),
      (cs.foldl (processChunk mt pt oracle) st).db = st.db ∧
        (cs.foldl (processChunk mt pt oracle) st).successful_inserts =
          st.successful_inserts := by
  intro cs
  induction cs with
  | nil => exact fun st => ⟨rfl, rfl⟩
  | cons c cs ih =>
    intro st
    rw [List.foldl_cons]
    have h1 := processChunk_fail_all mt pt hfail st c
    have h2 := ih (processChunk mt pt oracle st c)
    exact ⟨h2.1.trans h1.1, h2.2.trans h1.2⟩

/-- Claim C3, confirmed.  When the insert of a non-empty batch fails (the
oracle refuses the transaction), `insert_batch` returns the store unchanged
(rollback) with False; the orchestrator records a batch-level error in the
summary's error list instead of raising, and processing of the remaining
chunks proceeds from that state.  Moreover a run whose every insert fails
leaves the destination store untouched and reports zero successful
inserts — the failures never abort the run. -/
theorem c3_insert_failure :
    (∀ (mt : List MetaRec) (pt : List PriceRow)
       (oracle : List CatRec → List CatRec → Bool) (st : OrchState) (chunk : List Row),
      (collateChunk mt pt chunk).1 ≠ [] →
      oracle st.db (collateChunk mt pt chunk).1 = false →
      insertBatch oracle st.db (collateChunk mt pt chunk).1 = (st.db, false) ∧
        processChunk mt pt oracle st chunk =
          ⟨st.db, st.successful_inserts,
           st.validation_failures + (collateChunk mt pt chunk).2, st.batch_count,
           st.errors ++ [.failedInsertBatch (st.batch_count + 1)]⟩ ∧
        ∀ rest : List (List Row),
          (chunk :: rest).foldl (processChunk mt pt oracle) st =
            rest.foldl (processChunk mt pt oracle) (processChunk mt pt oracle st chunk)) ∧
    (∀ (df : List Row) (mt : List MetaRec) (pt : List PriceRow)
       (oracle : List CatRec → List CatRec → Bool) (db0 : List CatRec) (n : Nat),
      (∀ db b, oracle db b = false) →
      (collateAndMigrate df mt pt oracle db0 n).2 = db0 ∧
        (collateAndMigrate df mt pt oracle db0 n).1.successful_inserts = 0) := by
  constructor
  · intro mt pt oracle st chunk hne hfail
    refine ⟨?_, ?_, fun rest => List.foldl_cons _ _⟩
    · unfold insertBatch
      rw [hfail]
      simp only [Bool.false_eq_true, if_false]
    · unfold processChunk insertBatch
      dsimp only
      rw [if_neg hne, hfail]
      simp only [Bool.false_eq_true, if_false]
  · intro df mt pt oracle db0 n hfail
    unfold collateAndMigrate
    dsimp only
    exact ⟨(foldChunks_fail_all mt pt hfail _ _).1, (foldChunks_fail_all mt pt hfail _ _).2⟩

/-- Claim C3, witness: a one-row chunk whose batch is non-empty, against an
oracle that always refuses: the store is unchanged, the error is recorded,
and the whole-run conclusion holds at the same inputs. -/
theorem c3_witness :
    (collateChunk [⟨['P'], none, none, []⟩] [⟨some ['x'], none, none, none, none, none, none, none, none⟩]
        [⟨some (.str ['P']), some (.str ['x']), none, none⟩]).1 ≠ [] ∧
    insertBatch (fun _ _ => false)
        (⟨[], 0, 0, 0, []⟩ : OrchState).db
        (collateChunk [⟨['P'], none, none, []⟩]
          [⟨some ['x'], none, none, none, none, none, none, none, none⟩]
          [⟨some (.str ['P']), some (.str ['x']), none, none⟩]).1 =
      ((⟨[], 0, 0, 0, []⟩ : OrchState).db, false) ∧
    (collateAndMigrate [⟨some (.str ['P']), some (.str ['x']), none, none⟩]
        [⟨['P'], none, none, []⟩]
        [⟨some ['x'], none, none, none, none, none, none, none, none⟩]
        (fun _ _ => false) [] 50).2 = [] := by
  refine ⟨by decide, ?_, ?_⟩
  · exact ((c3_insert_failure.1 [⟨['P'], none, none, []⟩]
      [⟨some ['x'], none, none, none, none, none, none, none, none⟩]
      (fun _ _ => false) ⟨[], 0, 0, 0, []⟩
      [⟨some (.str ['P']), some (.str ['x']), none, none⟩]
      (by decide) rfl).1)
  · exact (c3_insert_failure.2 [⟨some (.str ['P']), some (.str ['x']), none, none⟩]
      [⟨['P'], none, none, []⟩]
      [⟨some ['x'], none, none, none, none, none, none, none, none⟩]
      (fun _ _ => false) [] 50 (fun _ _ => rfl)).1

/-! ## Duplicate-removal lemmas -/

theorem dedupeGo_irrel : ∀ (f1 f2 : Nat) (l : List Row),
    l.length ≤ f1 → l.length ≤ f2 → dedupeGo f1 l = dedupeGo f2 l := by
  intro f1
  induction f1 with
  | zero =>
    intro f2 l h1 h2
    cases l with
    | nil => cases f2 <;> rfl
    | cons r rs => simp at h1
  | succ k ih =>
    intro f2 l h1 h2
    cases l with
    | nil => cases f2 <;> rfl
    | cons r rs =>
      cases f2 with
      | zero => simp at h2
      | succ m =>
        show r :: dedupeGo k _ = r :: dedupeGo m _
        congr 1
        have hf := List.length_filter_le
          (fun x => decide (x.product_id ≠ r.product_id)) rs
        rw [List.length_cons] at h1 h2
        exact ih m _ (le_trans hf (Nat.le_of_succ_le_succ h1))
          (le_trans hf (Nat.le_of_succ_le_succ h2))

theorem dedupeRows_cons (r : Row) (rs : List Row) :
    dedupeRows (r :: rs) =
      r :: dedupeRows (rs.filter fun x => decide (x.product_id ≠ r.product_id)) := by
  show dedupeGo (r :: rs).length (r :: rs) = _
  rw [List.length_cons]
  show r :: dedupeGo rs.length _ = _
  congr 1
  exact dedupeGo_irrel rs.length _ _ (List.length_filter_le _ _) (le_refl _)

theorem mem_dedupeRows_aux : ∀ (k : Nat) (l : List Row), l.length ≤ k →
    ∀ x ∈ dedupeRows l, x ∈ l := by
  intro k
  induction k with
  | zero =>
    intro l hl x hx
    cases l with
    | nil => cases hx
    | cons r rs => simp at hl
  | succ k ih =>
    intro l hl x hx
    cases l with
    | nil => cases hx
    | cons r rs =>
      rw [dedupeRows_cons] at hx
      rcases List.mem_cons.mp hx with h | h
      · exact h ▸ List.mem_cons_self r rs
      · have hlen : (rs.filter fun x => decide (x.product_id ≠ r.product_id)).length ≤ k := by
          have := List.length_filter_le (fun x => decide (x.product_id ≠ r.product_id)) rs
          rw [List.length_cons] at hl
          omega
        have := ih _ hlen x h
        exact List.mem_cons_of_mem r (List.mem_filter.mp this).1

theorem mem_dedupeRows {l : List Row} {x : Row} (h : x ∈ dedupeRows l) : x ∈ l :=
  mem_dedupeRows_aux l.length l (le_refl _) x h

theorem dedupe_pids_nodup_aux : ∀ (k : Nat) (l : List Row), l.length ≤ k →
    ((dedupeRows l).map Row.product_id).Nodup := by
  intro k
  induction k with
  | zero =>
    intro l hl
    cases l with
    | nil => exact List.nodup_nil
    | cons r rs => simp at hl
  | succ k ih =>
    intro l hl
    cases l with
    | nil => exact List.nodup_nil
    | cons r rs =>
      rw [dedupeRows_cons, List.map_cons, List.nodup_cons]
      have hlen : (rs.filter fun x => decide (x.product_id ≠ r.product_id)).length ≤ k := by
        have := List.length_filter_le (fun x => decide (x.product_id ≠ r.product_id)) rs
        rw [List.length_cons] at hl
        omega
      refine ⟨?_, ih _ hlen⟩
      intro hmem
      rw [List.mem_map] at hmem
      obtain ⟨x, hx, hpx⟩ := hmem
      have hxf := mem_dedupeRows hx
      have hne := (List.mem_filter.mp hxf).2
      rw [decide_eq_true_eq] at hne
      exact hne hpx

theorem dedupe_pids_nodup (l : List Row) : ((dedupeRows l).map Row.product_id).Nodup :=
  dedupe_pids_nodup_aux l.length l (le_refl _)

theorem dedupeRows_length_le_aux : ∀ (k : Nat) (l : List Row), l.length ≤ k →
    (dedupeRows l).length ≤ l.length := by
  intro k
  induction k with
  | zero =>
    intro l hl
    cases l with
    | nil => exact le_refl _
    | cons r rs => simp at hl
  | succ k ih =>
    intro l hl
    cases l with
    | nil => exact le_refl _
    | cons r rs =>
      rw [dedupeRows_cons, List.length_cons, List.length_cons]
      have hf := List.length_filter_le (fun x => decide (x.product_id ≠ r.product_id)) rs
      have hlen : (rs.filter fun x => decide (x.product_id ≠ r.product_id)).length ≤ k := by
        rw [List.length_cons] at hl
        omega
      have := ih _ hlen
      omega

theorem dedupeRows_length_le (l : List Row) : (dedupeRows l).length ≤ l.length :=
  dedupeRows_length_le_aux l.length l (le_refl _)

/-! ## The run-error list does not influence the store or the counters -/

theorem processChunk_core_eq (mt : List MetaRec) (pt : List PriceRow)
    (oracle : List CatRec → List CatRec → Bool) (db : List CatRec) (s v b : Nat)
    (e1 e2 : List RunError) (c : List Row) :
    (processChunk mt pt oracle ⟨db, s, v, b, e1⟩ c).db =
        (processChunk mt pt oracle ⟨db, s, v, b, e2⟩ c).db ∧
      (processChunk mt pt oracle ⟨db, s, v, b, e1⟩ c).successful_inserts =
        (processChunk mt pt oracle ⟨db, s, v, b, e2⟩ c).successful_inserts ∧
      (processChunk mt pt oracle ⟨db, s, v, b, e1⟩ c).validation_failures =
        (processChunk mt pt oracle ⟨db, s, v, b, e2⟩ c).validation_failures ∧
      (processChunk mt pt oracle ⟨db, s, v, b, e1⟩ c).batch_count =
        (processChunk mt pt oracle ⟨db, s, v, b, e2⟩ c).batch_count := by
  unfold processChunk insertBatch
  dsimp only
  by_cases hc : (collateChunk mt pt c).1 = []
  · simp only [if_pos hc]
    exact ⟨trivial, trivial, trivial, trivial⟩
  · simp only [if_neg hc]
    by_cases ho : oracle db (collateChunk mt pt c).1 = true
    · simp only [if_pos ho]
      exact ⟨trivial, trivial, trivial, trivial⟩
    · simp only [if_neg ho]
      exact ⟨trivial, trivial, trivial, trivial⟩

theorem foldChunks_core_eq (mt : List MetaRec) (pt : List PriceRow)
    (oracle : List CatRec → List CatRec → Bool) :
    ∀ (cs : List (List Row)) (db : List CatRec) (s v b : Nat) (e1 e2 : List RunError),
      (cs.foldl (processChunk mt pt oracle) ⟨db, s, v, b, e1⟩).db =
          (cs.foldl (processChunk mt pt oracle) ⟨db, s, v, b, e2⟩).db ∧
        (cs.foldl (processChunk mt pt oracle) ⟨db, s, v, b, e1⟩).successful_inserts =
          (cs.foldl (processChunk mt pt oracle) ⟨db, s, v, b, e2⟩).successful_inserts ∧
        (cs.foldl (processChunk mt pt oracle) ⟨db, s, v, b, e1⟩).validation_failures =
          (cs.foldl (processChunk mt pt oracle) ⟨db, s, v, b, e2⟩).validation_failures ∧
        (cs.foldl (processChunk mt pt oracle) ⟨db, s, v, b, e1⟩).batch_count =
          (cs.foldl (processChunk mt pt oracle) ⟨db, s, v, b, e2⟩).batch_count := by
  intro cs
  induction cs with
  | nil => exact fun db s v b e1 e2 => ⟨rfl, rfl, rfl, rfl⟩
  | cons c cs ih =>
    intro db s v b e1 e2
    rw [List.foldl_cons, List.foldl_cons]
    obtain ⟨h1, h2, h3, h4⟩ := processChunk_core_eq mt pt oracle db s v b e1 e2 c
    have es2 : processChunk mt pt oracle ⟨db, s, v, b, e2⟩ c =
        ⟨(processChunk mt pt oracle ⟨db, s, v, b, e1⟩ c).db,
         (processChunk mt pt oracle ⟨db, s, v, b, e1⟩ c).successful_inserts,
         (processChunk mt pt oracle ⟨db, s, v, b, e1⟩ c).validation_failures,
         (processChunk mt pt oracle ⟨db, s, v, b, e1⟩ c).batch_count,
         (processChunk mt pt oracle ⟨db, s, v, b, e2⟩ c).errors⟩ := by
      rw [h1, h2, h3, h4]
    rw [es2]
    exact ih (processChunk mt pt oracle ⟨db, s, v, b, e1⟩ c).db
      (processChunk mt pt oracle ⟨db, s, v, b, e1⟩ c).successful_inserts
      (processChunk mt pt oracle ⟨db, s, v, b, e1⟩ c).validation_failures
      (processChunk mt pt oracle ⟨db, s, v, b, e1⟩ c).batch_count
      (processChunk mt pt oracle ⟨db, s, v, b, e1⟩ c).errors
      (processChunk mt pt oracle ⟨db, s, v, b, e2⟩ c).errors

/-! ## Claim C5: duplicate product ids -/

/-- Claim C5, counterexample.  For an input of exactly two rows sharing a
product_id, `check_duplicate_products` uses `keep=False`, so BOTH rows are
reported: `duplicate_failures` is 2, while dedupe removes only one row;
the claim's "the other row is counted as exactly one duplicate failure" and
"the reported duplicate count equals the number of removed rows" both fail. -/
theorem c5_counterexample :
    (collateAndMigrate
        [⟨some (.str ['P']), some (.str ['X']), none, none⟩,
         ⟨some (.str ['P']), some (.str ['Y']), none, none⟩]
        [] [] (fun _ _ => true) [] 50).1.duplicate_failures = 2 ∧
      ([⟨some (.str ['P']), some (.str ['X']), none, none⟩,
        (⟨some (.str ['P']), some (.str ['Y']), none, none⟩ : Row)].length -
        (dedupeRows
          [⟨some (.str ['P']), some (.str ['X']), none, none⟩,
           ⟨some (.str ['P']), some (.str ['Y']), none, none⟩]).length) = 1 := by
  decide

/-- Claim C5, amended.  For a two-row input sharing a product_id,
deduplication keeps only the first occurrence in original order; the removed
row is neither written to the destination nor individually rejected (the run
behaves exactly like the one-row run on the kept row, in inserts, validation
failures and final store); but the reported `duplicate_failures` counter is
2 — it counts both rows of the pair — exceeding the number of removed rows,
which is 1. -/
theorem c5_amended (rA rB : Row) (hpid : rB.product_id = rA.product_id)
    (mt : List MetaRec) (pt : List PriceRow)
    (oracle : List CatRec → List CatRec → Bool) (db0 : List CatRec) (n : Nat) :
    dedupeRows [rA, rB] = [rA] ∧
    (collateAndMigrate [rA, rB] mt pt oracle db0 n).1.duplicate_failures = 2 ∧
    [rA, rB].length - (dedupeRows [rA, rB]).length = 1 ∧
    (collateAndMigrate [rA, rB] mt pt oracle db0 n).1.successful_inserts =
      (collateAndMigrate [rA] mt pt oracle db0 n).1.successful_inserts ∧
    (collateAndMigrate [rA, rB] mt pt oracle db0 n).1.validation_failures =
      (collateAndMigrate [rA] mt pt oracle db0 n).1.validation_failures ∧
    (collateAndMigrate [rA, rB] mt pt oracle db0 n).2 =
      (collateAndMigrate [rA] mt pt oracle db0 n).2 := by
  have hded : dedupeRows [rA, rB] = [rA] := by
    rw [dedupeRows_cons]
    rw [show ([rB].filter fun x => decide (x.product_id ≠ rA.product_id)) = [] by
      simp [hpid]]
    rfl
  have hdup2 : dupMarkedCount [rA, rB] = 2 := by
    unfold dupMarkedCount
    simp [List.countP_cons, List.filter_cons, hpid]
  have hdup1 : dupMarkedCount [rA] = 0 := by
    unfold dupMarkedCount
    simp [List.countP_cons, List.filter_cons]
  have e2 : (if dupMarkedCount [rA, rB] ≠ 0 then [RunError.duplicateIdsFound] else []) =
      [RunError.duplicateIdsFound] := by
    rw [hdup2]
    simp
  have e2' : (if dupMarkedCount [rA, rB] ≠ 0 then dedupeRows [rA, rB] else [rA, rB]) =
      [rA] := by
    rw [hdup2, hded]
    simp
  have e1 : (if dupMarkedCount [rA] ≠ 0 then [RunError.duplicateIdsFound] else []) = [] := by
    rw [hdup1]
    simp
  have e1' : (if dupMarkedCount [rA] ≠ 0 then dedupeRows [rA] else [rA]) = [rA] := by
    rw [hdup1]
    simp
  have hL : collateAndMigrate [rA, rB] mt pt oracle db0 n =
      (⟨[rA, rB].length,
        ((chunksOf n ([rA].filter
            (keepRow (checkExistingProducts db0 ([rA].map Row.product_id))))).foldl
          (processChunk mt pt oracle) ⟨db0, 0, 0, 0, [RunError.duplicateIdsFound]⟩).successful_inserts,
        ((chunksOf n ([rA].filter
            (keepRow (checkExistingProducts db0 ([rA].map Row.product_id))))).foldl
          (processChunk mt pt oracle) ⟨db0, 0, 0, 0, [RunError.duplicateIdsFound]⟩).validation_failures,
        dupMarkedCount [rA, rB],
        (checkExistingProducts db0 ([rA].map Row.product_id)).length,
        ((chunksOf n ([rA].filter
            (keepRow (checkExistingProducts db0 ([rA].map Row.product_id))))).foldl
          (processChunk mt pt oracle) ⟨db0, 0, 0, 0, [RunError.duplicateIdsFound]⟩).errors⟩,
       ((chunksOf n ([rA].filter
            (keepRow (checkExistingProducts db0 ([rA].map Row.product_id))))).foldl
          (processChunk mt pt oracle) ⟨db0, 0, 0, 0, [RunError.duplicateIdsFound]⟩).db) := by
    unfold collateAndMigrate
    dsimp only
    rw [e2, e2']
  have hR : collateAndMigrate [rA] mt pt oracle db0 n =
      (⟨[rA].length,
        ((chunksOf n ([rA].filter
            (keepRow (checkExistingProducts db0 ([rA].map Row.product_id))))).foldl
          (processChunk mt pt oracle) ⟨db0, 0, 0, 0, []⟩).successful_inserts,
        ((chunksOf n ([rA].filter
            (keepRow (checkExistingProducts db0 ([rA].map Row.product_id))))).foldl
          (processChunk mt pt oracle) ⟨db0, 0, 0, 0, []⟩).validation_failures,
        dupMarkedCount [rA],
        (checkExistingProducts db0 ([rA].map Row.product_id)).length,
        ((chunksOf n ([rA].filter
            (keepRow (checkExistingProducts db0 ([rA].map Row.product_id))))).foldl
          (processChunk mt pt oracle) ⟨db0, 0, 0, 0, []⟩).errors⟩,
       ((chunksOf n ([rA].filter
            (keepRow (checkExistingProducts db0 ([rA].map Row.product_id))))).foldl
          (processChunk mt pt oracle) ⟨db0, 0, 0, 0, []⟩).db) := by
    unfold collateAndMigrate
    dsimp only
    rw [e1, e1']
  obtain ⟨cdb, csucc, cval, _⟩ := foldChunks_core_eq mt pt oracle
    (chunksOf n ([rA].filter
      (keepRow (checkExistingProducts db0 ([rA].map Row.product_id)))))
    db0 0 0 0 [RunError.duplicateIdsFound] []
  refine ⟨hded, ?_, ?_, ?_, ?_, ?_⟩
  · rw [hL]
    exact hdup2
  · rw [hded]
    rfl
  · rw [hL, hR]
    exact csucc
  · rw [hL, hR]
    exact cval
  · rw [hL, hR]
    exact cdb

/-- Claim C5, witness: the amended theorem at a concrete duplicate pair with
different item codes. -/
theorem c5_witness :
    dedupeRows
        [⟨some (.str ['P']), some (.str ['X']), none, none⟩,
         ⟨some (.str ['P']), some (.str ['Y']), none, none⟩] =
      [⟨some (.str ['P']), some (.str ['X']), none, none⟩] ∧
    (collateAndMigrate
        [⟨some (.str ['P']), some (.str ['X']), none, none⟩,
         ⟨some (.str ['P']), some (.str ['Y']), none, none⟩]
        [] [] (fun _ _ => true) [] 50).1.duplicate_failures = 2 ∧
    [(⟨some (.str ['P']), some (.str ['X']), none, none⟩ : Row),
      ⟨some (.str ['P']), some (.str ['Y']), none, none⟩].length -
      (dedupeRows
        [⟨some (.str ['P']), some (.str ['X']), none, none⟩,
         ⟨some (.str ['P']), some (.str ['Y']), none, none⟩]).length = 1 ∧
    (collateAndMigrate
        [⟨some (.str ['P']), some (.str ['X']), none, none⟩,
         ⟨some (.str ['P']), some (.str ['Y']), none, none⟩]
        [] [] (fun _ _ => true) [] 50).1.successful_inserts =
      (collateAndMigrate [⟨some (.str ['P']), some (.str ['X']), none, none⟩]
        [] [] (fun _ _ => true) [] 50).1.successful_inserts ∧
    (collateAndMigrate
        [⟨some (.str ['P']), some (.str ['X']), none, none⟩,
         ⟨some (.str ['P']), some (.str ['Y']), none, none⟩]
        [] [] (fun _ _ => true) [] 50).1.validation_failures =
      (collateAndMigrate [⟨some (.str ['P']), some (.str ['X']), none, none⟩]
        [] [] (fun _ _ => true) [] 50).1.validation_failures ∧
    (collateAndMigrate
        [⟨some (.str ['P']), some (.str ['X']), none, none⟩,
         ⟨some (.str ['P']), some (.str ['Y']), none, none⟩]
        [] [] (fun _ _ => true) [] 50).2 =
      (collateAndMigrate [⟨some (.str ['P']), some (.str ['X']), none, none⟩]
        [] [] (fun _ _ => true) [] 50).2 :=
  c5_amended ⟨some (.str ['P']), some (.str ['X']), none, none⟩
    ⟨some (.str ['P']), some (.str ['Y']), none, none⟩ (by decide)
    [] [] (fun _ _ => true) [] 50

/-! ## Chunking and oracle-true counting lemmas -/

theorem chunksGo_flatten {n : Nat} (hn : 0 < n) :
    ∀ (fuel : Nat) (l : List Row), l.length ≤ fuel → (chunksGo n fuel l).flatten = l := by
  intro fuel
  induction fuel with
  | zero =>
    intro l hl
    cases l with
    | nil => rfl
    | cons r rs => simp at hl
  | succ k ih =>
    intro l hl
    cases l with
    | nil => rfl
    | cons r rs =>
      show ((r :: rs).take n :: chunksGo n k ((r :: rs).drop n)).flatten = r :: rs
      rw [List.flatten_cons, ih ((r :: rs).drop n) (by
        rw [List.length_drop, List.length_cons]
        rw [List.length_cons] at hl
        omega), List.take_append_drop]

theorem chunksOf_flatten {n : Nat} (hn : 0 < n) (l : List Row) :
    (chunksOf n l).flatten = l :=
  chunksGo_flatten hn l.length l (le_refl _)

theorem chunksOf_sum_length {n : Nat} (hn : 0 < n) (l : List Row) :
    ((chunksOf n l).map List.length).sum = l.length := by
  rw [← List.length_flatten, chunksOf_flatten hn]

theorem mem_chunksOf {n : Nat} (hn : 0 < n) {l : List Row} {c : List Row} {r : Row}
    (hc : c ∈ chunksOf n l) (hr : r ∈ c) : r ∈ l := by
  rw [← chunksOf_flatten hn l]
  exact List.mem_flatten.mpr ⟨c, hc, hr⟩

theorem processChunk_true (mt : List MetaRec) (pt : List PriceRow)
    {oracle : List CatRec → List CatRec → Bool}
    (horacle : ∀ db b, oracle db b = true) (st : OrchState) (c : List Row) :
    (processChunk mt pt oracle st c).db = st.db ++ (collateChunk mt pt c).1 ∧
      (processChunk mt pt oracle st c).successful_inserts =
        st.successful_inserts + (collateChunk mt pt c).1.length ∧
      (processChunk mt pt oracle st c).validation_failures =
        st.validation_failures + (collateChunk mt pt c).2 := by
  unfold processChunk insertBatch
  dsimp only
  by_cases hc : (collateChunk mt pt c).1 = []
  · rw [if_pos hc, hc]
    simp
  · rw [if_neg hc, horacle]
    simp only [if_pos]
    exact ⟨trivial, trivial, trivial⟩

theorem foldChunks_true (mt : List MetaRec) (pt : List PriceRow)
    {oracle : List CatRec → List CatRec → Bool}
    (horacle : ∀ db b, oracle db b = true) :
    ∀ (cs : List (List Row)) (st : OrchState),
      (cs.foldl (processChunk mt pt oracle) st).successful_inserts +
          (cs.foldl (processChunk mt pt oracle) st).validation_failures =
        st.successful_inserts + st.validation_failures + (cs.map List.length).sum := by
  intro cs
  induction cs with
  | nil => intro st; simp
  | cons c cs ih =>
    intro st
    rw [List.foldl_cons, ih, List.map_cons, List.sum_cons]
    obtain ⟨_, h2, h3⟩ := processChunk_true mt pt horacle st c
    rw [h2, h3]
    have h4 := chunkRecs_length_add (chunkMeta mt c) (chunkPrice pt c) c
    have h5 : (collateChunk mt pt c).1.length = (chunkRecs (chunkMeta mt c) (chunkPrice pt c) c).length := by
      rw [collateChunk_eq]
    have h6 : (collateChunk mt pt c).2 = chunkRej (chunkMeta mt c) (chunkPrice pt c) c := by
      rw [collateChunk_eq]
    omega

/-! ## Counting the rows dropped by the existing-product filter -/

theorem countP_not_add {α : Type} (p : α → Bool) (l : List α) :
    l.countP p + l.countP (fun x => !p x) = l.length := by
  induction l with
  | nil => rfl
  | cons x xs ih =>
    rw [List.countP_cons, List.countP_cons, List.length_cons]
    cases h : p x <;> simp [h] <;> omega

theorem countP_or_disjoint {α : Type} (p q : α → Bool) (l : List α)
    (h : ∀ x ∈ l, ¬(p x = true ∧ q x = true)) :
    l.countP (fun x => p x || q x) = l.countP p + l.countP q := by
  induction l with
  | nil => rfl
  | cons x xs ih =>
    rw [List.countP_cons, List.countP_cons, List.countP_cons,
      ih (fun y hy => h y (List.mem_cons_of_mem x hy))]
    have hx := h x (List.mem_cons_self x xs)
    cases hp : p x <;> cases hq : q x <;> simp [hp, hq] at hx ⊢ <;> omega

theorem countP_pid_eq_one : ∀ (l : List Row), (l.map Row.product_id).Nodup →
    ∀ (a : Option Cell), a ∈ l.map Row.product_id →
    l.countP (fun r => decide (r.product_id = a)) = 1 := by
  intro l
  induction l with
  | nil => intro _ a ha; cases ha
  | cons r rs ih =>
    intro hnd a ha
    rw [List.map_cons, List.nodup_cons] at hnd
    rw [List.countP_cons]
    by_cases hr : r.product_id = a
    · have hz : rs.countP (fun x => decide (x.product_id = a)) = 0 := by
        rw [List.countP_eq_zero]
        intro x hx hpx
        rw [decide_eq_true_eq] at hpx
        exact hnd.1 (hr ▸ hpx ▸ List.mem_map_of_mem Row.product_id hx)
      rw [hz]
      simp [hr]
    · rw [List.map_cons, List.mem_cons] at ha
      rcases ha with ha | ha
      · exact absurd ha.symm hr
      · rw [ih hnd.2 a ha]
        simp [hr]

theorem mem_checkExisting {db : List CatRec} {pids : List (Option Cell)} {s : Str}
    (h : s ∈ checkExistingProducts db pids) :
    (some (Cell.str s)) ∈ pids ∧ ∃ c ∈ db, c.product_id = s := by
  unfold checkExistingProducts at h
  rw [List.mem_map] at h
  obtain ⟨c, hc, hcs⟩ := h
  rw [List.mem_filter] at hc
  have := hc.2
  rw [List.elem_iff] at this
  exact ⟨hcs ▸ this, c, hc.1, hcs⟩

theorem checkExisting_cons (c : CatRec) (db : List CatRec) (pids : List (Option Cell)) :
    checkExistingProducts (c :: db) pids =
      (if pids.contains (some (Cell.str c.product_id)) then [c.product_id] else []) ++
        checkExistingProducts db pids := by
  unfold checkExistingProducts
  rw [List.filter_cons]
  split <;> simp

theorem dropped_eq : ∀ (db0 : List CatRec), (db0.map CatRec.product_id).Nodup →
    ∀ (l : List Row), (l.map Row.product_id).Nodup →
    l.countP (fun r => !keepRow (checkExistingProducts db0 (l.map Row.product_id)) r) =
      (checkExistingProducts db0 (l.map Row.product_id)).length := by
  intro db0
  induction db0 with
  | nil =>
    intro _ l _
    have : l.countP (fun r => !keepRow (checkExistingProducts [] (l.map Row.product_id)) r)
        = 0 := by
      rw [List.countP_eq_zero]
      intro r _ hr
      cases hp : r.product_id with
      | none => simp [keepRow, hp] at hr
      | some cell =>
        cases cell with
        | nan => simp [keepRow, hp] at hr
        | str s => simp [keepRow, hp, checkExistingProducts] at hr
    rw [this]
    rfl
  | cons c db ih =>
    intro hnd l hl
    rw [List.map_cons, List.nodup_cons] at hnd
    rw [checkExisting_cons]
    by_cases hpc : (l.map Row.product_id).contains (some (Cell.str c.product_id))
    · rw [if_pos hpc, List.singleton_append]
      have hpoint : ∀ r ∈ l,
          (!keepRow (c.product_id :: checkExistingProducts db (l.map Row.product_id)) r) =
          (decide (r.product_id = some (Cell.str c.product_id)) ||
            !keepRow (checkExistingProducts db (l.map Row.product_id)) r) := by
        intro r _
        cases hp : r.product_id with
        | none => simp [keepRow, hp]
        | some cell =>
          cases cell with
          | nan => simp [keepRow, hp]
          | str s =>
            have hbeq : (s == c.product_id) =
                decide (some (Cell.str s) = some (Cell.str c.product_id)) := by
              by_cases hs : s = c.product_id
              · subst hs
                simp
              · rw [beq_eq_false_iff_ne.mpr hs, Eq.comm, decide_eq_false]
                intro hcon
                cases hcon
                exact hs rfl
            simp only [keepRow, hp, Bool.not_not, List.contains_cons, hbeq]
      rw [List.countP_congr (fun x hx => by rw [hpoint x hx])]
      rw [countP_or_disjoint _ _ l (by
        intro r _ hcon
        obtain ⟨h1, h2⟩ := hcon
        rw [decide_eq_true_eq] at h1
        cases hp : r.product_id with
        | none => rw [hp] at h1; cases h1
        | some cell =>
          rw [hp] at h1
          cases h1
          simp only [keepRow, hp, Bool.not_not] at h2
          rw [List.elem_iff] at h2
          obtain ⟨_, ⟨c', hc', hcs⟩⟩ := mem_checkExisting h2
          exact hnd.1 (hcs ▸ List.mem_map_of_mem CatRec.product_id hc'))]
      rw [countP_pid_eq_one l hl _ (by
        rw [← List.elem_iff]
        exact hpc)]
      rw [ih hnd.2 l hl, List.length_cons]
      omega
    · rw [if_neg hpc]
      rw [List.nil_append]
      exact ih hnd.2 l hl

/-! ## Duplicate-free inputs -/

theorem nodup_of_count_le_one : ∀ (df : List Row),
    (∀ r ∈ df, df.countP (fun x => decide (x.product_id = r.product_id)) ≤ 1) →
    (df.map Row.product_id).Nodup := by
  intro df
  induction df with
  | nil => intro _; exact List.nodup_nil
  | cons r rs ih =>
    intro h
    rw [List.map_cons, List.nodup_cons]
    constructor
    · intro hmem
      rw [List.mem_map] at hmem
      obtain ⟨x, hx, hpx⟩ := hmem
      have h1 := h r (List.mem_cons_self r rs)
      rw [List.countP_cons] at h1
      have h2 : 0 < rs.countP (fun x => decide (x.product_id = r.product_id)) := by
        rw [List.countP_pos_iff]
        exact ⟨x, hx, by rw [decide_eq_true_eq]; exact hpx⟩
      have h3 : rs.countP (fun x => decide (x.product_id = r.product_id)) + 1 ≤ 1 := by
        simpa using h1
      omega
    · refine ih ?_
      intro x hx
      have h1 := h x (List.mem_cons_of_mem r hx)
      rw [List.countP_cons] at h1
      omega

theorem nodup_of_no_dup_marked {df : List Row} (h : dupMarkedCount df = 0) :
    (df.map Row.product_id).Nodup := by
  unfold dupMarkedCount at h
  rw [List.length_eq_zero] at h
  refine nodup_of_count_le_one df ?_
  intro r hr
  by_contra hc
  have h2 : 2 ≤ df.countP (fun x => decide (x.product_id = r.product_id)) := by omega
  have : r ∈ df.filter fun r =>
      2 ≤ df.countP (fun x => decide (x.product_id = r.product_id)) := by
    rw [List.mem_filter]
    exact ⟨hr, by rw [decide_eq_true_eq]; exact h2⟩
  rw [h] at this
  cases this

theorem dedupe_eq_self_of_nodup : ∀ {df : List Row},
    (df.map Row.product_id).Nodup → dedupeRows df = df := by
  intro df
  induction df with
  | nil => intro _; rfl
  | cons r rs ih =>
    intro h
    rw [List.map_cons, List.nodup_cons] at h
    rw [dedupeRows_cons]
    have hf : (rs.filter fun x => decide (x.product_id ≠ r.product_id)) = rs := by
      rw [List.filter_eq_self]
      intro x hx
      rw [decide_eq_true_eq]
      intro hcon
      exact h.1 (hcon ▸ List.mem_map_of_mem Row.product_id hx)
    rw [hf, ih h.2]

/-- In the orchestrator, the conditionally-applied dedupe always equals the
unconditional one: when no duplicates are marked the input is already
duplicate-free. -/
theorem d1_eq (df : List Row) :
    (if dupMarkedCount df ≠ 0 then dedupeRows df else df) = dedupeRows df := by
  by_cases h : dupMarkedCount df = 0
  · rw [if_neg (by simp [h])]
    exact (dedupe_eq_self_of_nodup (nodup_of_no_dup_marked h)).symm
  · rw [if_pos h]

/-! ## Claim C1: the accounting identity -/

/-- Claim C1, counterexample.  With two valid rows sharing a product_id,
the first is deduplicated away and inserted once, but `duplicate_failures`
reports 2 (both rows of the duplicated key): the claimed identity gives
1 + 0 + 2 + 0 = 3 against 2 total rows. -/
theorem c1_counterexample :
    ¬ ((collateAndMigrate
        [⟨some (.str ['P']), some (.str ['X']), none, none⟩,
         ⟨some (.str ['P']), some (.str ['Y']), none, none⟩]
        [⟨['P'], none, none, []⟩]
        [⟨some ['x'], none, none, none, none, none, none, none, none⟩]
        (fun _ _ => true) [] 50).1.successful_inserts +
      (collateAndMigrate
        [⟨some (.str ['P']), some (.str ['X']), none, none⟩,
         ⟨some (.str ['P']), some (.str ['Y']), none, none⟩]
        [⟨['P'], none, none, []⟩]
        [⟨some ['x'], none, none, none, none, none, none, none, none⟩]
        (fun _ _ => true) [] 50).1.validation_failures +
      (collateAndMigrate
        [⟨some (.str ['P']), some (.str ['X']), none, none⟩,
         ⟨some (.str ['P']), some (.str ['Y']), none, none⟩]
        [⟨['P'], none, none, []⟩]
        [⟨some ['x'], none, none, none, none, none, none, none, none⟩]
        (fun _ _ => true) [] 50).1.duplicate_failures +
      (collateAndMigrate
        [⟨some (.str ['P']), some (.str ['X']), none, none⟩,
         ⟨some (.str ['P']), some (.str ['Y']), none, none⟩]
        [⟨['P'], none, none, []⟩]
        [⟨some ['x'], none, none, none, none, none, none, none, none⟩]
        (fun _ _ => true) [] 50).1.existing_products =
      (collateAndMigrate
        [⟨some (.str ['P']), some (.str ['X']), none, none⟩,
         ⟨some (.str ['P']), some (.str ['Y']), none, none⟩]
        [⟨['P'], none, none, []⟩]
        [⟨some ['x'], none, none, none, none, none, none, none, none⟩]
        (fun _ _ => true) [] 50).1.total_rows) := by
  decide

/-- Claim C1, amended.  When every batch insert succeeds and the destination
store holds no duplicate product ids, the counters satisfy
`successful_inserts + validation_failures + existing_products + removed = total_rows`,
where `removed` is the number of rows actually removed by deduplication —
not the reported `duplicate_failures`, which counts every row of a
duplicated key including the kept first occurrence. -/
theorem c1_amended (df : List Row) (mt : List MetaRec) (pt : List PriceRow)
    (oracle : List CatRec → List CatRec → Bool) (db0 : List CatRec) (n : Nat)
    (hn : 0 < n) (horacle : ∀ db b, oracle db b = true)
    (hdb0 : (db0.map CatRec.product_id).Nodup) :
    (collateAndMigrate df mt pt oracle db0 n).1.successful_inserts +
      (collateAndMigrate df mt pt oracle db0 n).1.validation_failures +
      (collateAndMigrate df mt pt oracle db0 n).1.existing_products +
      (df.length - (dedupeRows df).length) =
      (collateAndMigrate df mt pt oracle db0 n).1.total_rows := by
  unfold collateAndMigrate
  dsimp only
  rw [d1_eq df]
  set d1 := dedupeRows df with hd1
  set ex := checkExistingProducts db0 (d1.map fun r => r.product_id) with hex
  set d2 := d1.filter (keepRow ex) with hd2
  set errs0 := (if dupMarkedCount df ≠ 0 then [RunError.duplicateIdsFound] else
    ([] : List RunError)) with herrs
  set F := (chunksOf n d2).foldl (processChunk mt pt oracle)
    (⟨db0, 0, 0, 0, errs0⟩ : OrchState) with hF
  have hsum := foldChunks_true mt pt horacle (chunksOf n d2)
    (⟨db0, 0, 0, 0, errs0⟩ : OrchState)
  rw [chunksOf_sum_length hn, ← hF] at hsum
  have hnodup1 : (d1.map Row.product_id).Nodup := by
    rw [hd1]
    exact dedupe_pids_nodup df
  have hdrop : d1.countP (fun r => !keepRow ex r) = ex.length := by
    rw [hex]
    exact dropped_eq db0 hdb0 d1 hnodup1
  have hkeep := countP_not_add (keepRow ex) d1
  have hfilt : d2.length = d1.countP (keepRow ex) := by
    rw [hd2]
    exact (List.countP_eq_length_filter _ _).symm
  have hlen_le : d1.length ≤ df.length := by
    rw [hd1]
    exact dedupeRows_length_le df
  dsimp only at hsum
  omega

/-- Claim C1, witness: the amended identity at a one-row duplicate-free
input whose row inserts successfully. -/
theorem c1_witness :
    0 < 50 ∧ (∀ db b, (fun (_ : List CatRec) (_ : List CatRec) => true) db b = true) ∧
      ((([] : List CatRec)).map CatRec.product_id).Nodup ∧
      (collateAndMigrate [⟨some (.str ['P']), some (.str ['X']), none, none⟩]
          [⟨['P'], none, none, []⟩]
          [⟨some ['x'], none, none, none, none, none, none, none, none⟩]
          (fun _ _ => true) [] 50).1.successful_inserts +
        (collateAndMigrate [⟨some (.str ['P']), some (.str ['X']), none, none⟩]
          [⟨['P'], none, none, []⟩]
          [⟨some ['x'], none, none, none, none, none, none, none, none⟩]
          (fun _ _ => true) [] 50).1.validation_failures +
        (collateAndMigrate [⟨some (.str ['P']), some (.str ['X']), none, none⟩]
          [⟨['P'], none, none, []⟩]
          [⟨some ['x'], none, none, none, none, none, none, none, none⟩]
          (fun _ _ => true) [] 50).1.existing_products +
        ([(⟨some (.str ['P']), some (.str ['X']), none, none⟩ : Row)].length -
          (dedupeRows [⟨some (.str ['P']), some (.str ['X']), none, none⟩]).length) =
        (collateAndMigrate [⟨some (.str ['P']), some (.str ['X']), none, none⟩]
          [⟨['P'], none, none, []⟩]
          [⟨some ['x'], none, none, none, none, none, none, none, none⟩]
          (fun _ _ => true) [] 50).1.total_rows :=
  ⟨by decide, fun _ _ => rfl, List.nodup_nil,
   c1_amended [⟨some (.str ['P']), some (.str ['X']), none, none⟩]
     [⟨['P'], none, none, []⟩]
     [⟨some ['x'], none, none, none, none, none, none, none, none⟩]
     (fun _ _ => true) [] 50 (by decide) (fun _ _ => rfl) List.nodup_nil⟩

/-! ## Price-dictionary lemmas -/

theorem dlookup_dinsert {α : Type} (k k' : Str) (v : α) (d : List (Str × α)) :
    dlookup k (dinsert k' v d) = if k' = k then some v else dlookup k d := by
  induction d with
  | nil =>
    unfold dinsert dlookup
    split <;> rfl
  | cons p t ih =>
    obtain ⟨pk, pv⟩ := p
    unfold dinsert
    by_cases h1 : pk = k'
    · rw [if_pos h1]
      unfold dlookup
      by_cases h2 : k' = k
      · rw [if_pos h2, if_pos h2]
      · rw [if_neg h2, if_neg h2, if_neg (by rw [h1]; exact h2)]
    · rw [if_neg h1]
      unfold dlookup
      by_cases h2 : pk = k
      · rw [if_pos h2, if_neg (by intro h; exact h1 (h2 ▸ h.symm ▸ rfl)), if_pos h2]
      · rw [if_neg h2, if_neg h2, ih]

/-- Whether processing price row `R` writes the dictionary key `k`: some
non-null truthy code column of `R` maps (lowercased, through `code_mapping`)
to the caller key `k`. -/
def assignHits (mapping : List (Str × Str)) (R : PriceRow) (k : Str) : Bool :=
  (match R.item_code with
   | some t => decide (t ≠ []) && decide (dlookup (toLowerStr t) mapping = some k)
   | none => false) ||
  (match R.original_item_code with
   | some t => decide (t ≠ []) && decide (dlookup (toLowerStr t) mapping = some k)
   | none => false)

theorem assignField_lookup (mapping : List (Str × Str)) (R : PriceRow)
    (fld : Option Str) (d : List (Str × PriceDetails)) (k : Str) :
    dlookup k (assignField mapping R fld d) =
      if (match fld with
          | some t => decide (t ≠ []) && decide (dlookup (toLowerStr t) mapping = some k)
          | none => false) then some (priceRec R)
      else dlookup k d := by
  cases fld with
  | none => rfl
  | some t =>
    unfold assignField
    dsimp only
    by_cases ht : t = []
    · rw [if_neg (by simp [ht])]
      simp [ht]
    · rw [if_pos ht]
      cases hm : dlookup (toLowerStr t) mapping with
      | none =>
        rw [if_neg (by simp [hm])]
      | some orig =>
        rw [dlookup_dinsert]
        by_cases hk : orig = k
        · rw [if_pos hk, if_pos (by simp [ht, hm, hk])]
        · rw [if_neg hk, if_neg (by simp [ht, hm]; intro h; exact absurd h hk)]

theorem processPriceRow_lookup (mapping : List (Str × Str))
    (d : List (Str × PriceDetails)) (R : PriceRow) (k : Str) :
    dlookup k (processPriceRow mapping d R) =
      if assignHits mapping R k then some (priceRec R) else dlookup k d := by
  unfold processPriceRow assignHits
  rw [assignField_lookup, assignField_lookup]
  cases h1 : (match R.item_code with
    | some t => decide (t ≠ []) && decide (dlookup (toLowerStr t) mapping = some k)
    | none => false) <;>
  cases h2 : (match R.original_item_code with
    | some t => decide (t ≠ []) && decide (dlookup (toLowerStr t) mapping = some k)
    | none => false) <;> simp [h1, h2]

theorem foldPrice_lookup_isSome (mapping : List (Str × Str)) (k : Str) :
    ∀ (RS : List PriceRow) (d0 : List (Str × PriceDetails)),
      (dlookup k (RS.foldl (processPriceRow mapping) d0)).isSome =
        (RS.any (fun R => assignHits mapping R k) || (dlookup k d0).isSome) := by
  intro RS
  induction RS with
  | nil => intro d0; simp
  | cons R RS ih =>
    intro d0
    rw [List.foldl_cons, ih, List.any_cons]
    rw [processPriceRow_lookup]
    by_cases h : assignHits mapping R k = true
    · simp [h]
    · rw [Bool.not_eq_true] at h
      simp [h]

theorem foldPrice_lookup_hits (mapping : List (Str × Str)) (R : PriceRow) (k : Str)
    (hhit : assignHits mapping R k = true) :
    ∀ (RS : List PriceRow) (d0 : List (Str × PriceDetails)),
      (∀ x ∈ RS, x = R) → RS ≠ [] →
      dlookup k (RS.foldl (processPriceRow mapping) d0) = some (priceRec R) := by
  intro RS
  induction RS with
  | nil => intro d0 _ hne; exact absurd rfl hne
  | cons R' RS ih =>
    intro d0 hall hne
    have hR' : R' = R := hall R' (List.mem_cons_self R' RS)
    subst hR'
    rw [List.foldl_cons]
    cases RS with
    | nil =>
      simp only [List.foldl_nil]
      rw [processPriceRow_lookup, if_pos hhit]
    | cons x xs =>
      exact ih _ (fun y hy => hall y (List.mem_cons_of_mem R' hy)) (by simp)

/-! ## Code-mapping characterization -/

theorem mapping_preserve : ∀ (cs : List Str) (acc : List (Str × Str) × List Str)
    (l v : Str), dlookup l acc.1 = some v →
    (∀ c ∈ cs, trim c ≠ [] → toLowerStr (trim c) = l → trim c = v) →
    dlookup l ((cs.foldl codeMapStep acc).1) = some v := by
  intro cs
  induction cs with
  | nil => intro acc l v h _; exact h
  | cons c cs ih =>
    intro acc l v h hall
    rw [List.foldl_cons]
    refine ih _ l v ?_ (fun c' hc' => hall c' (List.mem_cons_of_mem c hc'))
    unfold codeMapStep
    by_cases htc : trim c ≠ []
    · rw [if_pos htc]
      dsimp only
      rw [dlookup_dinsert]
      by_cases hl : toLowerStr (trim c) = l
      · rw [if_pos hl, hall c (List.mem_cons_self c cs) htc hl]
      · rw [if_neg hl]
        exact h
    · rw [if_neg htc]
      exact h

theorem mapping_self : ∀ (cs : List Str) (acc : List (Str × Str) × List Str)
    (c : Str), c ∈ cs → trim c ≠ [] →
    (∀ c' ∈ cs, trim c' ≠ [] → toLowerStr (trim c') = toLowerStr (trim c) →
      trim c' = trim c) →
    dlookup (toLowerStr (trim c)) ((cs.foldl codeMapStep acc).1) = some (trim c) := by
  intro cs
  induction cs with
  | nil => intro _ c hc; cases hc
  | cons c0 cs ih =>
    intro acc c hc htc hinj
    rcases List.mem_cons.mp hc with hc0 | hcs
    · subst hc0
      rw [List.foldl_cons]
      refine mapping_preserve cs _ _ _ ?_
        (fun c' hc' h1 h2 => hinj c' (List.mem_cons_of_mem c hc') h1 h2)
      unfold codeMapStep
      rw [if_pos htc]
      dsimp only
      rw [dlookup_dinsert, if_pos rfl]
    · rw [List.foldl_cons]
      exact ih _ c hcs htc
        (fun c' hc' h1 h2 => hinj c' (List.mem_cons_of_mem c0 hc') h1 h2)

theorem mapping_mem : ∀ (cs : List Str) (acc : List (Str × Str) × List Str)
    (l v : Str), dlookup l ((cs.foldl codeMapStep acc).1) = some v →
    dlookup l acc.1 = some v ∨
      ∃ c ∈ cs, trim c ≠ [] ∧ toLowerStr (trim c) = l ∧ v = trim c := by
  intro cs
  induction cs with
  | nil => intro acc l v h; exact Or.inl h
  | cons c cs ih =>
    intro acc l v h
    rw [List.foldl_cons] at h
    rcases ih _ l v h with h' | h'
    · unfold codeMapStep at h'
      by_cases htc : trim c ≠ []
      · rw [if_pos htc] at h'
        dsimp only at h'
        rw [dlookup_dinsert] at h'
        by_cases hl : toLowerStr (trim c) = l
        · rw [if_pos hl] at h'
          cases h'
          exact Or.inr ⟨c, List.mem_cons_self c cs, htc, hl, rfl⟩
        · rw [if_neg hl] at h'
          exact Or.inl h'
      · rw [if_neg htc] at h'
        exact Or.inl h'
    · obtain ⟨c', hc', h1, h2, h3⟩ := h'
      exact Or.inr ⟨c', List.mem_cons_of_mem c hc', h1, h2, h3⟩

theorem lows_mono : ∀ (cs : List Str) (acc : List (Str × Str) × List Str) (x : Str),
    x ∈ acc.2 → x ∈ (cs.foldl codeMapStep acc).2 := by
  intro cs
  induction cs with
  | nil => intro acc x h; exact h
  | cons c cs ih =>
    intro acc x h
    rw [List.foldl_cons]
    refine ih _ x ?_
    unfold codeMapStep
    by_cases htc : trim c ≠ []
    · rw [if_pos htc]
      exact List.mem_append_left _ h
    · rw [if_neg htc]
      exact h

theorem lows_mem : ∀ (cs : List Str) (acc : List (Str × Str) × List Str)
    (c : Str), c ∈ cs → trim c ≠ [] →
    toLowerStr (trim c) ∈ (cs.foldl codeMapStep acc).2 := by
  intro cs
  induction cs with
  | nil => intro _ c hc; cases hc
  | cons c0 cs ih =>
    intro acc c hc htc
    rcases List.mem_cons.mp hc with hc0 | hcs
    · subst hc0
      rw [List.foldl_cons]
      refine lows_mono cs _ _ ?_
      unfold codeMapStep
      rw [if_pos htc]
      exact List.mem_append_right _ (List.mem_singleton.mpr rfl)
    · rw [List.foldl_cons]
      exact ih _ c hcs htc

theorem lows_src : ∀ (cs : List Str) (acc : List (Str × Str) × List Str) (x : Str),
    x ∈ (cs.foldl codeMapStep acc).2 →
    x ∈ acc.2 ∨ ∃ c ∈ cs, trim c ≠ [] ∧ x = toLowerStr (trim c) := by
  intro cs
  induction cs with
  | nil => intro acc x h; exact Or.inl h
  | cons c cs ih =>
    intro acc x h
    rw [List.foldl_cons] at h
    rcases ih _ x h with h' | h'
    · unfold codeMapStep at h'
      by_cases htc : trim c ≠ []
      · rw [if_pos htc] at h'
        rcases List.mem_append.mp h' with h'' | h''
        · exact Or.inl h''
        · exact Or.inr ⟨c, List.mem_cons_self c cs, htc,
            (List.mem_singleton.mp h'').symm ▸ rfl⟩
      · rw [if_neg htc] at h'
        exact Or.inl h'
    · obtain ⟨c', hc', h1, h2⟩ := h'
      exact Or.inr ⟨c', List.mem_cons_of_mem c hc', h1, h2⟩

/-! ## Claim C6: price lookup under canonical and alternate codes -/

/-- Claim C6, counterexample.  When two requested codes share a lowercase
form ("X1" and "x1"), the later one overwrites the earlier in
`code_mapping`, so although the caller key "X1" lowercases to the row's
canonical code, no record is returned under the original-cased key "X1" —
the record is filed only under "x1". -/
theorem c6_counterexample :
    dlookup ['X', '1']
        (getPriceDetailsBatch [['X', '1'], ['x', '1']]
          [⟨some ['x', '1'], none, some 1, none, none, none, none, none, none⟩]) = none ∧
      toLowerStr (trim ['X', '1']) = toLowerStr ['x', '1'] ∧
      dlookup ['x', '1']
        (getPriceDetailsBatch [['X', '1'], ['x', '1']]
          [⟨some ['x', '1'], none, some 1, none, none, none, none, none, none⟩]) ≠ none := by
  decide

/-- Claim C6, amended.  When the requested codes have pairwise distinct
lowercased trimmed forms and a single reference row matches the query, a
record is returned under the caller's original-cased (trimmed) key whenever
the caller's lowercased key equals the row's canonical `item_code` or its
alternate `original_item_code` lowercased — and a code matching only the
alternate column resolves to the same record as one matching the canonical
column. -/
theorem c6_amended (item_codes : List Str) (table : List PriceRow) (R : PriceRow)
    (c1 c2 t1 t2 : Str)
    (hinj : ∀ c ∈ item_codes, ∀ c' ∈ item_codes, trim c ≠ [] → trim c' ≠ [] →
      toLowerStr (trim c) = toLowerStr (trim c') → trim c = trim c')
    (hR : R ∈ table)
    (huniq : ∀ R' ∈ table,
      sqlPriceMatch (buildCodeMapping item_codes).2 R' = true → R' = R)
    (hc1 : c1 ∈ item_codes) (ht1 : trim c1 ≠ [])
    (hf1 : R.item_code = some t1) (ht1' : t1 ≠ [])
    (hl1 : toLowerStr t1 = toLowerStr (trim c1))
    (hc2 : c2 ∈ item_codes) (ht2 : trim c2 ≠ [])
    (hf2 : R.original_item_code = some t2) (ht2' : t2 ≠ [])
    (hl2 : toLowerStr t2 = toLowerStr (trim c2)) :
    dlookup (trim c1) (getPriceDetailsBatch item_codes table) = some (priceRec R) ∧
      dlookup (trim c2) (getPriceDetailsBatch item_codes table) = some (priceRec R) := by
  have hmap1 : dlookup (toLowerStr (trim c1)) (buildCodeMapping item_codes).1 =
      some (trim c1) :=
    mapping_self item_codes ([], []) c1 hc1 ht1
      (fun c' hc' h1 h2 => hinj c' hc' c1 hc1 h1 ht1 h2)
  have hmap2 : dlookup (toLowerStr (trim c2)) (buildCodeMapping item_codes).1 =
      some (trim c2) :=
    mapping_self item_codes ([], []) c2 hc2 ht2
      (fun c' hc' h1 h2 => hinj c' hc' c2 hc2 h1 ht2 h2)
  have hne : item_codes ≠ [] := List.ne_nil_of_mem hc1
  have hlow1mem : toLowerStr (trim c1) ∈ (buildCodeMapping item_codes).2 :=
    lows_mem item_codes ([], []) c1 hc1 ht1
  have hlne : (buildCodeMapping item_codes).2 ≠ [] := List.ne_nil_of_mem hlow1mem
  have hsql : sqlPriceMatch (buildCodeMapping item_codes).2 R = true := by
    unfold sqlPriceMatch optLowMem
    rw [hf1]
    dsimp only
    have hcont : (buildCodeMapping item_codes).2.contains (toLowerStr t1) = true := by
      rw [hl1]
      rw [List.contains_eq_any_beq, List.any_eq_true]
      exact ⟨toLowerStr (trim c1), hlow1mem, by simp⟩
    rw [hcont]
    rfl
  have hall : ∀ x ∈ table.filter (sqlPriceMatch (buildCodeMapping item_codes).2),
      x = R := by
    intro x hx
    have h := List.mem_filter.mp hx
    exact huniq x h.1 h.2
  have hRf : R ∈ table.filter (sqlPriceMatch (buildCodeMapping item_codes).2) :=
    List.mem_filter.mpr ⟨hR, hsql⟩
  have hfne : table.filter (sqlPriceMatch (buildCodeMapping item_codes).2) ≠ [] :=
    List.ne_nil_of_mem hRf
  have hhit1 : assignHits (buildCodeMapping item_codes).1 R (trim c1) = true := by
    unfold assignHits
    rw [hf1]
    have : dlookup (toLowerStr t1) (buildCodeMapping item_codes).1 = some (trim c1) := by
      rw [hl1]
      exact hmap1
    simp [ht1', this]
  have hhit2 : assignHits (buildCodeMapping item_codes).1 R (trim c2) = true := by
    unfold assignHits
    rw [hf2]
    have : dlookup (toLowerStr t2) (buildCodeMapping item_codes).1 = some (trim c2) := by
      rw [hl2]
      exact hmap2
    simp [ht2', this]
  unfold getPriceDetailsBatch
  rw [if_neg hne, if_neg hlne]
  exact ⟨foldPrice_lookup_hits _ R (trim c1) hhit1 _ [] hall hfne,
         foldPrice_lookup_hits _ R (trim c2) hhit2 _ [] hall hfne⟩

/-- Claim C6, witness: the amended theorem at a concrete table row matched
by the code "B1" through the canonical column and by "A1" only through the
alternate column; both resolve to the same record. -/
theorem c6_witness :
    dlookup ['B', '1']
        (getPriceDetailsBatch [['B', '1'], ['A', '1']]
          [⟨some ['b', '1'], some ['a', '1'], some 7, none, none, none, none, none, none⟩]) =
      some (priceRec
        ⟨some ['b', '1'], some ['a', '1'], some 7, none, none, none, none, none, none⟩) ∧
    dlookup ['A', '1']
        (getPriceDetailsBatch [['B', '1'], ['A', '1']]
          [⟨some ['b', '1'], some ['a', '1'], some 7, none, none, none, none, none, none⟩]) =
      some (priceRec
        ⟨some ['b', '1'], some ['a', '1'], some 7, none, none, none, none, none, none⟩) :=
  c6_amended [['B', '1'], ['A', '1']]
    [⟨some ['b', '1'], some ['a', '1'], some 7, none, none, none, none, none, none⟩]
    ⟨some ['b', '1'], some ['a', '1'], some 7, none, none, none, none, none, none⟩
    ['B', '1'] ['A', '1'] ['b', '1'] ['a', '1']
    (by decide) (by decide) (by decide)
    (by decide) (by decide) (by decide) (by decide) (by decide)
    (by decide) (by decide) (by decide) (by decide) (by decide)

/-! ## Claim C7: the three location encodings

The claim's three encodings of a token sequence: a JSON array literal, a
comma-separated string, and a brace-wrapped comma-separated string.  These
definitions follow the claim's wording, to be decoded by the source's
`_validate_location_array`. -/

/-- A token quoted as a JSON string literal. -/
def quoteTok (t : Str) : Str := '"' :: t ++ ['"']

/-- Comma-joined token list. -/
def joinSep : List Str → Str
  | [] => []
  | [t] => t
  | t :: ts => t ++ ',' :: joinSep ts

/-- The JSON-style array literal encoding, e.g. `["A","B"]`. -/
def encJson (ts : List Str) : Str := '[' :: joinSep (ts.map quoteTok) ++ [']']

/-- The comma-separated string encoding, e.g. `A,B`. -/
def encComma (ts : List Str) : Str := joinSep ts

/-- The brace-wrapped encoding, e.g. `\x7bA,B\x7d`. -/
def encBrace (ts : List Str) : Str := '{' :: joinSep ts ++ ['}']

/-- A plain token character: not whitespace, not a brace, and none of the
delimiter characters of the three encodings. -/
def goodChar (c : Char) : Bool :=
  !isWs c && !isBrace c && !(c == ',') && !(c == '"') && !(c == '\\') &&
    !(c == '[') && !(c == ']')

/-- A well-formed plain token: non-empty, made of plain characters, and not
the literal "nan" (which the validator maps to no-location). -/
def wfTok (t : Str) : Prop := t ≠ [] ∧ (∀ c ∈ t, goodChar c = true) ∧ t ≠ sNan

theorem joinSep_cons_cons (t t' : Str) (ts : List Str) :
    joinSep (t :: t' :: ts) = t ++ ',' :: joinSep (t' :: ts) := rfl

theorem mem_joinSep : ∀ {ts : List Str} {c : Char}, c ∈ joinSep ts →
    c = ',' ∨ ∃ t ∈ ts, c ∈ t := by
  intro ts
  induction ts with
  | nil => intro c h; cases h
  | cons t ts ih =>
    intro c h
    cases ts with
    | nil =>
      exact Or.inr ⟨t, List.mem_singleton.mpr rfl, h⟩
    | cons t' ts' =>
      rw [joinSep_cons_cons] at h
      rcases List.mem_append.mp h with h' | h'
      · exact Or.inr ⟨t, List.mem_cons_self t _, h'⟩
      · rcases List.mem_cons.mp h' with h'' | h''
        · exact Or.inl h''
        · rcases ih h'' with h3 | ⟨t'', ht'', hc⟩
          · exact Or.inl h3
          · exact Or.inr ⟨t'', List.mem_cons_of_mem t ht'', hc⟩

theorem head?_joinSep (t : Str) (ts : List Str) (ht : t ≠ []) :
    (joinSep (t :: ts)).head? = t.head? := by
  cases ts with
  | nil => rfl
  | cons t' ts' =>
    rw [joinSep_cons_cons]
    exact List.head?_append_of_ne_nil t ht

theorem joinSep_ne_nil (t : Str) (ts : List Str) (ht : t ≠ []) :
    joinSep (t :: ts) ≠ [] := by
  intro h
  have := head?_joinSep t ts ht
  rw [h] at this
  cases t with
  | nil => exact ht rfl
  | cons c t' => cases this

theorem splitComma_cons_comma (r : Str) : splitComma (',' :: r) = [] :: splitComma r := by
  simp only [splitComma]
  rw [if_pos trivial]

theorem splitComma_cons_other (c : Char) (r : Str) (hc : ¬c = ',') :
    splitComma (c :: r) =
      match splitComma r with
      | [] => [[c]]
      | h :: t => (c :: h) :: t := by
  simp only [splitComma]
  rw [if_neg hc]

theorem splitComma_no_comma : ∀ {t : Str}, (∀ c ∈ t, (c == ',') = false) →
    splitComma t = [t] := by
  intro t
  induction t with
  | nil => intro _; rfl
  | cons c t ih =>
    intro h
    have hc : ¬c = ',' := by
      have := h c (List.mem_cons_self c t)
      rw [beq_eq_false_iff_ne] at this
      exact this
    rw [splitComma_cons_other c t hc, ih (fun c' hc' => h c' (List.mem_cons_of_mem c hc'))]

theorem splitComma_append : ∀ {t : Str} (r : Str), (∀ c ∈ t, (c == ',') = false) →
    splitComma (t ++ ',' :: r) = t :: splitComma r := by
  intro t
  induction t with
  | nil =>
    intro r _
    exact splitComma_cons_comma r
  | cons c t ih =>
    intro r h
    have hc : ¬c = ',' := by
      have := h c (List.mem_cons_self c t)
      rw [beq_eq_false_iff_ne] at this
      exact this
    show splitComma (c :: (t ++ ',' :: r)) = (c :: t) :: splitComma r
    rw [splitComma_cons_other c _ hc, ih r (fun c' hc' => h c' (List.mem_cons_of_mem c hc'))]

theorem splitComma_joinSep : ∀ {ts : List Str}, ts ≠ [] →
    (∀ t ∈ ts, ∀ c ∈ t, (c == ',') = false) → splitComma (joinSep ts) = ts := by
  intro ts
  induction ts with
  | nil => intro h; exact absurd rfl h
  | cons t ts ih =>
    intro _ h
    cases ts with
    | nil =>
      exact splitComma_no_comma (h t (List.mem_cons_self t _))
    | cons t' ts' =>
      rw [joinSep_cons_cons,
        splitComma_append _ (h t (List.mem_cons_self t _)),
        ih (by simp) (fun u hu => h u (List.mem_cons_of_mem t hu))]

theorem filterMap_trim_id : ∀ {ts : List Str}, (∀ t ∈ ts, t ≠ [] ∧ trim t = t) →
    (ts.filterMap fun p => if trim p ≠ [] then some (trim p) else none) = ts := by
  intro ts
  induction ts with
  | nil => intro _; rfl
  | cons t ts ih =>
    intro h
    obtain ⟨h1, h2⟩ := h t (List.mem_cons_self t ts)
    rw [List.filterMap_cons]
    rw [if_pos (by rw [h2]; exact h1)]
    rw [h2, ih (fun u hu => h u (List.mem_cons_of_mem t hu))]

theorem filterMap_jstr_id : ∀ {ts : List Str}, (∀ t ∈ ts, t ≠ [] ∧ trim t = t) →
    ((ts.map JVal.jstr).filterMap fun loc =>
      if jvalTruthy loc ∧ trim (jvalStr loc) ≠ [] then some (trim (jvalStr loc)) else none) =
      ts := by
  intro ts
  induction ts with
  | nil => intro _; rfl
  | cons t ts ih =>
    intro h
    obtain ⟨h1, h2⟩ := h t (List.mem_cons_self t ts)
    rw [List.map_cons, List.filterMap_cons]
    have hcond : (jvalTruthy (JVal.jstr t) ∧ trim (jvalStr (JVal.jstr t)) ≠ []) := by
      constructor
      · show (!t.isEmpty) = true
        cases t with
        | nil => exact absurd rfl h1
        | cons c u => rfl
      · show trim t ≠ []
        rw [h2]
        exact h1
    rw [if_pos hcond]
    show trim t :: _ = _
    rw [h2, ih (fun u hu => h u (List.mem_cons_of_mem t hu))]

theorem skipWs_cons_notWs {c : Char} (r : Str) (hc : isWs c = false) :
    skipWs (c :: r) = c :: r := by
  unfold skipWs
  rw [List.dropWhile_cons, hc]
  simp only [Bool.false_eq_true, if_false]

theorem parseJStringBody_token : ∀ {t : Str} (r : Str),
    (∀ c ∈ t, (c == '"') = false ∧ (c == '\\') = false) →
    parseJStringBody (t ++ '"' :: r) = some (t, r) := by
  intro t
  induction t with
  | nil =>
    intro r _
    show parseJStringBody ('"' :: r) = some ([], r)
    rw [parseJStringBody.eq_def]
    dsimp only
    rw [if_pos rfl]
  | cons c t ih =>
    intro r h
    have hc := h c (List.mem_cons_self c t)
    have hc1 : ¬c = '"' := by
      have := hc.1
      rw [beq_eq_false_iff_ne] at this
      exact this
    have hc2 : ¬c = '\\' := by
      have := hc.2
      rw [beq_eq_false_iff_ne] at this
      exact this
    show parseJStringBody (c :: (t ++ '"' :: r)) = some (c :: t, r)
    rw [parseJStringBody.eq_def]
    dsimp only
    rw [if_neg hc1, if_neg hc2, ih r (fun c' hc' => h c' (List.mem_cons_of_mem c hc'))]

theorem parseJVal_quoted (t : Str) (r : Str)
    (h : ∀ c ∈ t, (c == '"') = false ∧ (c == '\\') = false) :
    parseJVal ('"' :: (t ++ '"' :: r)) = some (.jstr t, r) := by
  show (match parseJStringBody (t ++ '"' :: r) with
    | some (t, rest) => some (JVal.jstr t, rest)
    | none => none) = some (.jstr t, r)
  rw [parseJStringBody_token r h]

theorem parseJItems_tokens : ∀ (ts : List Str) (fuel : Nat) (r : Str), ts ≠ [] →
    (∀ t ∈ ts, ∀ c ∈ t, (c == '"') = false ∧ (c == '\\') = false) →
    ts.length ≤ fuel →
    parseJItems fuel (joinSep (ts.map quoteTok) ++ ']' :: r) =
      some (ts.map JVal.jstr, r) := by
  intro ts
  induction ts with
  | nil => intro fuel r hne; exact absurd rfl hne
  | cons t ts ih =>
    intro fuel r _ hwf hfuel
    cases fuel with
    | zero => simp at hfuel
    | succ f =>
      cases ts with
      | nil =>
        have hin : joinSep ([t].map quoteTok) ++ ']' :: r =
            '"' :: (t ++ '"' :: (']' :: r)) := by
          show quoteTok t ++ ']' :: r = _
          unfold quoteTok
          simp [List.append_assoc]
        rw [hin]
        rw [parseJItems.eq_def]
        dsimp only
        rw [parseJVal_quoted t (']' :: r) (hwf t (List.mem_cons_self t _))]
        dsimp only
        rw [show skipWs (']' :: r) = ']' :: r from skipWs_cons_notWs r rfl]
        rfl
      | cons t2 ts' =>
        have hin : joinSep ((t :: t2 :: ts').map quoteTok) ++ ']' :: r =
            '"' :: (t ++ '"' ::
              (',' :: (joinSep ((t2 :: ts').map quoteTok) ++ ']' :: r))) := by
          rw [List.map_cons, List.map_cons, joinSep_cons_cons, ← List.map_cons]
          unfold quoteTok
          simp [List.append_assoc]
        rw [hin]
        rw [parseJItems.eq_def]
        dsimp only
        rw [parseJVal_quoted t _ (hwf t (List.mem_cons_self t _))]
        dsimp only
        rw [show skipWs (',' :: (joinSep ((t2 :: ts').map quoteTok) ++ ']' :: r)) =
          ',' :: (joinSep ((t2 :: ts').map quoteTok) ++ ']' :: r) from
          skipWs_cons_notWs _ rfl]
        have hhead : ∃ y, joinSep ((t2 :: ts').map quoteTok) = '"' :: y := by
          cases ts' with
          | nil => exact ⟨t2 ++ ['"'], rfl⟩
          | cons t3 ts'' =>
            rw [List.map_cons, List.map_cons, joinSep_cons_cons]
            refine ⟨t2 ++ ['"'] ++ ',' :: joinSep (quoteTok t3 :: ts''.map quoteTok), ?_⟩
            show quoteTok t2 ++ _ = _
            unfold quoteTok
            simp [List.append_assoc]
        obtain ⟨y, hy⟩ := hhead
        have hskip : skipWs (joinSep ((t2 :: ts').map quoteTok) ++ ']' :: r) =
            joinSep ((t2 :: ts').map quoteTok) ++ ']' :: r := by
          rw [hy, List.cons_append]
          exact skipWs_cons_notWs _ rfl
        show (match parseJItems f (skipWs (joinSep ((t2 :: ts').map quoteTok) ++ ']' :: r)) with
          | some (vs, rr) => some (JVal.jstr t :: vs, rr)
          | none => none) = some ((t :: t2 :: ts').map JVal.jstr, r)
        rw [hskip]
        rw [ih f r (by simp) (fun u hu => hwf u (List.mem_cons_of_mem t hu)) (by
          simp only [List.length_cons] at hfuel ⊢
          omega)]
        rfl

theorem joinSep_quote_length : ∀ (ts : List Str),
    ts.length ≤ (joinSep (ts.map quoteTok)).length := by
  intro ts
  induction ts with
  | nil => exact Nat.le_refl 0
  | cons t ts ih =>
    cases ts with
    | nil =>
      show 1 ≤ (quoteTok t).length
      unfold quoteTok
      simp only [List.length_cons, List.length_append]
      omega
    | cons t2 ts' =>
      rw [List.map_cons, List.map_cons, joinSep_cons_cons]
      rw [List.map_cons] at ih
      simp only [List.length_cons, List.length_append] at ih ⊢
      omega

theorem jsonParseArray_enc (ts : List Str) (hne : ts ≠ [])
    (hwf : ∀ t ∈ ts, ∀ c ∈ t, (c == '"') = false ∧ (c == '\\') = false) :
    jsonParseArray (encJson ts) = some (ts.map JVal.jstr) := by
  cases ts with
  | nil => exact absurd rfl hne
  | cons t ts' =>
    have hhead : ∃ y, joinSep ((t :: ts').map quoteTok) = '"' :: y := by
      cases ts' with
      | nil => exact ⟨t ++ ['"'], rfl⟩
      | cons t2 ts'' =>
        rw [List.map_cons, List.map_cons, joinSep_cons_cons]
        refine ⟨t ++ ['"'] ++ ',' :: joinSep (quoteTok t2 :: ts''.map quoteTok), ?_⟩
        show quoteTok t ++ _ = _
        unfold quoteTok
        simp [List.append_assoc]
    obtain ⟨y, hy⟩ := hhead
    have hlen : (t :: ts').length ≤ (encJson (t :: ts')).length := by
      unfold encJson
      simp only [List.length_cons, List.length_append]
      have := joinSep_quote_length (t :: ts')
      simp only [List.length_cons] at this ⊢
      omega
    show (match skipWs (joinSep ((t :: ts').map quoteTok) ++ [']']) with
      | ']' :: r2 => if skipWs r2 = [] then some [] else none
      | r1 =>
        match parseJItems (encJson (t :: ts')).length r1 with
        | some (vs, rest) => if skipWs rest = [] then some vs else none
        | none => none) = some ((t :: ts').map JVal.jstr)
    rw [hy, List.cons_append]
    rw [show skipWs ('"' :: (y ++ [']'])) = '"' :: (y ++ [']']) from
      skipWs_cons_notWs _ rfl]
    show (match parseJItems (encJson (t :: ts')).length ('"' :: (y ++ [']'])) with
      | some (vs, rest) => if skipWs rest = [] then some vs else none
      | none => none) = some ((t :: ts').map JVal.jstr)
    have hitems := parseJItems_tokens (t :: ts') (encJson (t :: ts')).length []
      (by simp) hwf hlen
    rw [show joinSep ((t :: ts').map quoteTok) ++ ']' :: ([] : Str) =
      '"' :: (y ++ [']']) from by rw [hy, List.cons_append]] at hitems
    rw [hitems]
    rfl

theorem goodChar_spec {c : Char} (h : goodChar c = true) :
    isWs c = false ∧ isBrace c = false ∧ (c == ',') = false ∧ (c == '"') = false ∧
      (c == '\\') = false ∧ (c == '[') = false ∧ (c == ']') = false := by
  unfold goodChar at h
  simp only [Bool.and_eq_true, Bool.not_eq_true'] at h
  exact ⟨h.1.1.1.1.1.1, h.1.1.1.1.1.2, h.1.1.1.1.2, h.1.1.1.2, h.1.1.2, h.1.2, h.2⟩

theorem beq_comm_false {a b : Char} (h : (a == b) = false) : (b == a) = false := by
  rw [beq_eq_false_iff_ne] at h ⊢
  exact fun hc => h hc.symm

theorem joinSep_chars {ts : List Str} (hwf : ∀ t ∈ ts, wfTok t) :
    ∀ c ∈ joinSep ts, isWs c = false ∧ isBrace c = false := by
  intro c hc
  rcases mem_joinSep hc with h | ⟨t, ht, hct⟩
  · subst h
    exact ⟨rfl, rfl⟩
  · have := goodChar_spec ((hwf t ht).2.1 c hct)
    exact ⟨this.1, this.2.1⟩

theorem wf_trim_fix {ts : List Str} (hwf : ∀ t ∈ ts, wfTok t) :
    ∀ t ∈ ts, t ≠ [] ∧ trim t = t := by
  intro t ht
  refine ⟨(hwf t ht).1, trim_eq_self ?_⟩
  intro c hc
  exact (goodChar_spec ((hwf t ht).2.1 c hc)).1

theorem stripBraces_wrap (m : Str) (hm : m ≠ []) (hchars : ∀ c ∈ m, isBrace c = false) :
    stripBraces ('{' :: m ++ ['}']) = m := by
  unfold stripBraces
  rw [List.cons_append]
  have h1 : List.dropWhile isBrace ('{' :: (m ++ ['}'])) =
      List.dropWhile isBrace (m ++ ['}']) := by
    rw [List.dropWhile_cons]
    rfl
  have hhd : ∃ c y, m = c :: y := by
    cases m with
    | nil => exact absurd rfl hm
    | cons c y => exact ⟨c, y, rfl⟩
  obtain ⟨c, y, hcy⟩ := hhd
  have h2 : List.dropWhile isBrace (m ++ ['}']) = m ++ ['}'] := by
    refine dropWhile_head_neg ?_ (hchars c (hcy ▸ List.mem_cons_self c y))
    rw [hcy]
    rfl
  rw [h1, h2]
  have h3 : (m ++ ['}']).reverse = '}' :: m.reverse := by
    rw [List.reverse_append]
    rfl
  rw [h3, List.dropWhile_cons]
  rw [show isBrace '}' = true from rfl]
  simp only [if_true]
  have hrev : ∃ c' y', m.reverse = c' :: y' := by
    cases hrv : m.reverse with
    | nil =>
      have := congrArg List.reverse hrv
      rw [List.reverse_reverse] at this
      exact absurd this hm
    | cons c' y' => exact ⟨c', y', rfl⟩
  obtain ⟨c', y', hcy'⟩ := hrev
  have hc'm : c' ∈ m := by
    rw [← List.mem_reverse, hcy']
    exact List.mem_cons_self c' y'
  rw [dropWhile_head_neg (by rw [hcy']; rfl) (hchars c' hc'm), List.reverse_reverse]

theorem locAfterStrip_joinSep (t1 : Str) (ts' : List Str)
    (hwf : ∀ t ∈ t1 :: ts', wfTok t) :
    locAfterStrip (joinSep (t1 :: ts')) = some (t1 :: ts') := by
  have hwf1 := hwf t1 (List.mem_cons_self t1 ts')
  have hg : ¬((joinSep (t1 :: ts')).head? = some '[' ∧
      (joinSep (t1 :: ts')).getLast? = some ']') := by
    intro hcon
    have hh := hcon.1
    rw [head?_joinSep t1 ts' hwf1.1] at hh
    cases ht1 : t1 with
    | nil => exact hwf1.1 ht1
    | cons c y =>
      rw [ht1] at hh
      simp only [List.head?_cons, Option.some.injEq] at hh
      have := (goodChar_spec (hwf1.2.1 c (ht1 ▸ List.mem_cons_self c y))).2.2.2.2.2.1
      rw [hh] at this
      simp at this
  unfold locAfterStrip
  dsimp only
  rw [if_neg hg]
  cases ts' with
  | nil =>
    show (if (joinSep [t1]).contains ',' = true then _ else _) = _
    have hcf : (joinSep [t1]).contains ',' = false := by
      show t1.contains ',' = false
      rw [List.contains_eq_any_beq]
      rw [Bool.eq_false_iff]
      intro hany
      rw [List.any_eq_true] at hany
      obtain ⟨c, hc, hbc⟩ := hany
      have := beq_comm_false (goodChar_spec (hwf1.2.1 c hc)).2.2.1
      rw [this] at hbc
      cases hbc
    rw [if_neg (by rw [hcf]; exact Bool.false_ne_true)]
    have htr : trim (joinSep [t1]) = t1 := by
      show trim t1 = t1
      exact (wf_trim_fix hwf t1 (List.mem_cons_self t1 [])).2
    rw [htr, if_pos hwf1.1]
  | cons t2 ts'' =>
    have hcont : (joinSep (t1 :: t2 :: ts'')).contains ',' = true := by
      rw [List.contains_eq_any_beq, List.any_eq_true]
      refine ⟨',', ?_, by simp⟩
      rw [joinSep_cons_cons]
      exact List.mem_append_right _ (List.mem_cons_self _ _)
    show (if (joinSep (t1 :: t2 :: ts'')).contains ',' = true then _ else _) = _
    rw [if_pos hcont]
    rw [splitComma_joinSep (by simp) (fun t ht c hc =>
      (goodChar_spec ((hwf t ht).2.1 c hc)).2.2.1)]
    rw [filterMap_trim_id (wf_trim_fix hwf)]

/-- Claim C7, counterexample.  The token sequence consisting of the tokens
brace-A-brace and B decodes differently under the JSON encoding and under
the comma encoding: the comma form loses the token's leading brace to the
strip of brace delimiters, so the two normalized outputs are not identical. -/
theorem c7_counterexample :
    validateLocationArray (.scalar (.str (encJson [['{', 'A', '}'], ['B']]))) =
        some [['{', 'A', '}'], ['B']] ∧
      validateLocationArray (.scalar (.str (encComma [['{', 'A', '}'], ['B']]))) =
        some [['A', '}'], ['B']] ∧
      validateLocationArray (.scalar (.str (encJson [['{', 'A', '}'], ['B']]))) ≠
        validateLocationArray (.scalar (.str (encComma [['{', 'A', '}'], ['B']]))) := by
  decide

/-- Claim C7, amended.  For every non-empty sequence of plain tokens (no
whitespace, braces, brackets, commas, quotes or backslashes, and not the
bare token "nan"), the three encodings — JSON array literal, comma-separated
string, and brace-wrapped string — are all normalized by
`_validate_location_array` to the identical output sequence, the token list
itself. -/
theorem c7_amended (ts : List Str) (hne : ts ≠ []) (hwf : ∀ t ∈ ts, wfTok t) :
    validateLocationArray (.scalar (.str (encJson ts))) = some ts ∧
      validateLocationArray (.scalar (.str (encComma ts))) = some ts ∧
      validateLocationArray (.scalar (.str (encBrace ts))) = some ts := by
  cases ts with
  | nil => exact absurd rfl hne
  | cons t1 ts' =>
    have hwf1 := hwf t1 (List.mem_cons_self t1 ts')
    have hjne : joinSep (t1 :: ts') ≠ [] := joinSep_ne_nil t1 ts' hwf1.1
    have hjchars := joinSep_chars hwf
    refine ⟨?_, ?_, ?_⟩
    · -- JSON encoding
      have hchars : ∀ c ∈ encJson (t1 :: ts'), isWs c = false ∧ isBrace c = false := by
        intro c hc
        unfold encJson at hc
        rcases List.mem_cons.mp hc with h | h
        · subst h
          exact ⟨rfl, rfl⟩
        · rcases List.mem_append.mp h with h | h
          · rcases mem_joinSep h with h' | ⟨q, hq, hcq⟩
            · subst h'
              exact ⟨rfl, rfl⟩
            · rw [List.mem_map] at hq
              obtain ⟨u, hu, hqu⟩ := hq
              rw [← hqu] at hcq
              unfold quoteTok at hcq
              rcases List.mem_cons.mp hcq with h'' | h''
              · subst h''
                exact ⟨rfl, rfl⟩
              · rcases List.mem_append.mp h'' with h3 | h3
                · have := goodChar_spec ((hwf u hu).2.1 c h3)
                  exact ⟨this.1, this.2.1⟩
                · rw [List.mem_singleton] at h3
                  subst h3
                  exact ⟨rfl, rfl⟩
          · rw [List.mem_singleton] at h
            subst h
            exact ⟨rfl, rfl⟩
      unfold validateLocationArray
      rw [if_neg (by show ¬isNa _ = true; intro h; cases h)]
      rw [if_neg (by
        simp only [PyVal.scalar.injEq, PyScalar.str.injEq]
        show ¬encJson (t1 :: ts') = []
        unfold encJson
        simp)]
      rw [if_neg (by
        simp only [PyVal.scalar.injEq, PyScalar.str.injEq]
        show ¬encJson (t1 :: ts') = sNan
        unfold encJson
        intro h
        injection h with h1 _
        exact absurd h1 (by decide))]
      show locAfterStrip (stripBraces (trim (encJson (t1 :: ts')))) = _
      rw [trim_eq_self (fun c hc => (hchars c hc).1),
        stripBraces_eq_self (fun c hc => (hchars c hc).2)]
      unfold locAfterStrip
      dsimp only
      have hguard : (encJson (t1 :: ts')).head? = some '[' ∧
          (encJson (t1 :: ts')).getLast? = some ']' := by
        constructor
        · rfl
        · show (('[' :: joinSep ((t1 :: ts').map quoteTok)) ++ [']']).getLast? = some ']'
          exact List.getLast?_concat _
      rw [if_pos hguard]
      rw [jsonParseArray_enc (t1 :: ts') (by simp) (fun t ht c hc => by
        have := goodChar_spec ((hwf t ht).2.1 c hc)
        exact ⟨this.2.2.2.1, this.2.2.2.2.1⟩)]
      show some _ = _
      rw [filterMap_jstr_id (wf_trim_fix hwf)]
    · -- comma encoding
      unfold validateLocationArray
      rw [if_neg (by show ¬isNa _ = true; intro h; cases h)]
      rw [if_neg (by
        simp only [PyVal.scalar.injEq, PyScalar.str.injEq]
        exact hjne)]
      rw [if_neg (by
        simp only [PyVal.scalar.injEq, PyScalar.str.injEq]
        show ¬encComma (t1 :: ts') = sNan
        intro hcon
        cases ts' with
        | nil =>
          exact hwf1.2.2 hcon
        | cons t2 ts'' =>
          have hcm : ',' ∈ encComma (t1 :: t2 :: ts'') := by
            show ',' ∈ joinSep (t1 :: t2 :: ts'')
            rw [joinSep_cons_cons]
            exact List.mem_append_right _ (List.mem_cons_self _ _)
          rw [hcon] at hcm
          exact absurd hcm (by decide))]
      show locAfterStrip (stripBraces (trim (joinSep (t1 :: ts')))) = _
      rw [trim_eq_self (fun c hc => (hjchars c hc).1),
        stripBraces_eq_self (fun c hc => (hjchars c hc).2)]
      exact locAfterStrip_joinSep t1 ts' hwf
    · -- brace encoding
      unfold validateLocationArray
      rw [if_neg (by show ¬isNa _ = true; intro h; cases h)]
      rw [if_neg (by
        simp only [PyVal.scalar.injEq, PyScalar.str.injEq]
        show ¬encBrace (t1 :: ts') = []
        unfold encBrace
        simp)]
      rw [if_neg (by
        simp only [PyVal.scalar.injEq, PyScalar.str.injEq]
        show ¬encBrace (t1 :: ts') = sNan
        unfold encBrace
        intro h
        injection h with h1 _
        exact absurd h1 (by decide))]
      show locAfterStrip (stripBraces (trim (encBrace (t1 :: ts')))) = _
      have hbchars : ∀ c ∈ encBrace (t1 :: ts'), isWs c = false := by
        intro c hc
        unfold encBrace at hc
        rcases List.mem_cons.mp hc with h | h
        · subst h
          rfl
        · rcases List.mem_append.mp h with h | h
          · exact (hjchars c h).1
          · rw [List.mem_singleton] at h
            subst h
            rfl
      rw [trim_eq_self hbchars]
      show locAfterStrip (stripBraces ('{' :: joinSep (t1 :: ts') ++ ['}'])) = _
      rw [stripBraces_wrap (joinSep (t1 :: ts')) hjne (fun c hc => (hjchars c hc).2)]
      exact locAfterStrip_joinSep t1 ts' hwf

/-- Claim C7, witness: the amended theorem at the claim's own example
sequence A, B. -/
theorem c7_witness :
    validateLocationArray (.scalar (.str (encJson [['A'], ['B']]))) = some [['A'], ['B']] ∧
      validateLocationArray (.scalar (.str (encComma [['A'], ['B']]))) =
        some [['A'], ['B']] ∧
      validateLocationArray (.scalar (.str (encBrace [['A'], ['B']]))) =
        some [['A'], ['B']] :=
  c7_amended [['A'], ['B']] (by decide) (by
    intro t ht
    rcases List.mem_cons.mp ht with h | h
    · subst h
      exact ⟨by decide, by decide, by decide⟩
    · rw [List.mem_singleton] at h
      subst h
      exact ⟨by decide, by decide, by decide⟩)

/-! ## Claim C4: chunk-independent row outcomes and the second run -/

theorem foldl_filter_id {α β : Type} (q : α → Bool) (f : β → α → β)
    (h : ∀ a, q a = false → ∀ b, f b a = b) :
    ∀ (l : List α) (b : β), (l.filter q).foldl f b = l.foldl f b := by
  intro l
  induction l with
  | nil => intro b; rfl
  | cons x xs ih =>
    intro b
    rw [List.filter_cons]
    by_cases hq : q x = true
    · rw [if_pos hq, List.foldl_cons, List.foldl_cons, ih]
    · rw [Bool.not_eq_true] at hq
      rw [if_neg (by rw [hq]; exact Bool.false_ne_true), ih, List.foldl_cons, h x hq b]

theorem filter_congr_mem {α : Type} (p q : α → Bool) :
    ∀ (l : List α), (∀ x ∈ l, p x = q x) → l.filter p = l.filter q := by
  intro l
  induction l with
  | nil => intro _; rfl
  | cons x xs ih =>
    intro h
    rw [List.filter_cons, List.filter_cons, h x (List.mem_cons_self x xs),
      ih (fun y hy => h y (List.mem_cons_of_mem x hy))]

theorem countP_congr_mem {α : Type} (p q : α → Bool) :
    ∀ (l : List α), (∀ x ∈ l, p x = q x) → l.countP p = l.countP q := by
  intro l
  induction l with
  | nil => intro _; rfl
  | cons x xs ih =>
    intro h
    rw [List.countP_cons, List.countP_cons, h x (List.mem_cons_self x xs),
      ih (fun y hy => h y (List.mem_cons_of_mem x hy))]

theorem filterMap_congr_mem {α β : Type} (f g : α → Option β) :
    ∀ (l : List α), (∀ x ∈ l, f x = g x) → l.filterMap f = l.filterMap g := by
  intro l
  induction l with
  | nil => intro _; rfl
  | cons x xs ih =>
    intro h
    rw [List.filterMap_cons, List.filterMap_cons, h x (List.mem_cons_self x xs),
      ih (fun y hy => h y (List.mem_cons_of_mem x hy))]

theorem filterMap_none {α β : Type} (f : α → Option β) :
    ∀ (l : List α), (∀ a ∈ l, f a = none) → l.filterMap f = [] := by
  intro l
  induction l with
  | nil => intro _; rfl
  | cons x xs ih =>
    intro h
    rw [List.filterMap_cons, h x (List.mem_cons_self x xs)]
    exact ih (fun a ha => h a (List.mem_cons_of_mem x ha))

theorem countP_filter_self {α : Type} (p : α → Bool) :
    ∀ (l : List α), (l.filter p).countP p = l.countP p := by
  intro l
  induction l with
  | nil => rfl
  | cons x xs ih =>
    rw [List.filter_cons, List.countP_cons]
    by_cases hp : p x = true
    · rw [if_pos hp, List.countP_cons, ih, hp]
    · rw [Bool.not_eq_true] at hp
      rw [if_neg (by rw [hp]; exact Bool.false_ne_true), ih, hp,
        if_neg Bool.false_ne_true]
      rfl

theorem filter_and_split {α : Type} (p q : α → Bool) :
    ∀ (l : List α), l.filter (fun a => p a && q a) = (l.filter p).filter q := by
  intro l
  induction l with
  | nil => rfl
  | cons x xs ih =>
    rw [List.filter_cons, List.filter_cons]
    by_cases hp : p x = true
    · rw [if_pos hp, List.filter_cons]
      by_cases hq : q x = true
      · rw [if_pos hq, if_pos (show (p x && q x) = true by rw [hp, hq]; rfl), ih]
      · rw [Bool.not_eq_true] at hq
        rw [if_neg (show ¬(q x = true) by rw [hq]; simp),
          if_neg (show ¬((p x && q x) = true) by rw [hq]; simp), ih]
    · rw [Bool.not_eq_true] at hp
      rw [if_neg (show ¬(p x = true) by rw [hp]; simp),
        if_neg (show ¬((p x && q x) = true) by rw [hp]; simp), ih]

theorem contains_append {α : Type} [BEq α] (l1 l2 : List α) (a : α) :
    (l1 ++ l2).contains a = (l1.contains a || l2.contains a) := by
  rw [List.contains_eq_any_beq, List.contains_eq_any_beq, List.contains_eq_any_beq,
    List.any_append]

theorem map_nodup_inj {α β : Type} {f : α → β} :
    ∀ {l : List α}, (l.map f).Nodup → ∀ x ∈ l, ∀ y ∈ l, f x = f y → x = y := by
  intro l
  induction l with
  | nil => intro _ x hx; cases hx
  | cons a as ih =>
    intro hnd x hx y hy hf
    rw [List.map_cons, List.nodup_cons] at hnd
    rcases List.mem_cons.mp hx with hx1 | hx2
    · rcases List.mem_cons.mp hy with hy1 | hy2
      · rw [hx1, hy1]
      · refine absurd ?_ hnd.1
        rw [← hx1, hf]
        exact List.mem_map_of_mem f hy2
    · rcases List.mem_cons.mp hy with hy1 | hy2
      · refine absurd ?_ hnd.1
        rw [← hy1, ← hf]
        exact List.mem_map_of_mem f hx2
      · exact ih hnd.2 x hx2 y hy2 hf

/-- The last metadata-table row carrying a given product id: the value the
batch dictionary holds under any queried id. -/
def metaLast (mt : List MetaRec) (p : Str) : Option MetaRec :=
  mt.foldl (fun o m => if m.product_id = p then some m else o) none

theorem metaFold_lookup (p : Str) :
    ∀ (ms : List MetaRec) (d : List (Str × MetaRec)),
      dlookup p (ms.foldl (fun d m => dinsert m.product_id m d) d) =
        ms.foldl (fun o m => if m.product_id = p then some m else o) (dlookup p d) := by
  intro ms
  induction ms with
  | nil => intro d; rfl
  | cons m ms ih =>
    intro d
    rw [List.foldl_cons, List.foldl_cons, ih, dlookup_dinsert]

/-- The metadata dictionary's entry for a queried product id does not depend
on which other ids were queried alongside it: it is always the last matching
table row. -/
theorem metaBatch_lookup (ids : List Str) (mt : List MetaRec) (p : Str) (hp : p ∈ ids) :
    dlookup p (getMetadataBatch ids mt) = metaLast mt p := by
  unfold getMetadataBatch
  rw [if_neg (by intro h; rw [h] at hp; cases hp)]
  rw [metaFold_lookup]
  unfold metaLast
  refine foldl_filter_id _ _ ?_ mt none
  intro m hm o
  rw [if_neg ?_]
  intro hc
  have : ids.contains p = true := by
    rw [List.contains_eq_any_beq, List.any_eq_true]
    exact ⟨p, hp, by simp⟩
  rw [hc, this] at hm
  cases hm

/-- Whether a nullable code column is truthy and lowercases to `lo`. -/
def fieldHitsLo (lo : Str) (fld : Option Str) : Bool :=
  match fld with
  | some t => decide (t ≠ []) && decide (toLowerStr t = lo)
  | none => false

/-- Whether processing a price row writes the requested code whose lowercase
form is `lo`. -/
def rowHitsLo (lo : Str) (R : PriceRow) : Bool :=
  fieldHitsLo lo R.item_code || fieldHitsLo lo R.original_item_code

/-- The record the price dictionary ends up holding under a requested code
with lowercase form `lo`: that of the last table row one of whose code
columns is truthy and lowercases to `lo`. -/
def priceLast (pt : List PriceRow) (lo : Str) : Option PriceDetails :=
  pt.foldl (fun o R => if rowHitsLo lo R then some (priceRec R) else o) none

theorem fieldHit_look (mapping : List (Str × Str)) (k : Str) (fld : Option Str)
    (h : (match fld with
          | some t => decide (t ≠ []) && decide (dlookup (toLowerStr t) mapping = some k)
          | none => false) = true) :
    ∃ t, fld = some t ∧ t ≠ [] ∧ dlookup (toLowerStr t) mapping = some k := by
  cases fld with
  | none => cases h
  | some t =>
    dsimp only at h
    rw [Bool.and_eq_true, decide_eq_true_eq, decide_eq_true_eq] at h
    exact ⟨t, rfl, h.1, h.2⟩

theorem assignHits_eq_rowHits (mapping : List (Str × Str)) (k : Str) (R : PriceRow)
    (hself : dlookup (toLowerStr k) mapping = some k)
    (hmem : ∀ l v, dlookup l mapping = some v → toLowerStr v = l) :
    assignHits mapping R k = rowHitsLo (toLowerStr k) R := by
  unfold assignHits rowHitsLo fieldHitsLo
  have hfld : ∀ (fld : Option Str),
      (match fld with
       | some t => decide (t ≠ []) && decide (dlookup (toLowerStr t) mapping = some k)
       | none => false) =
      (match fld with
       | some t => decide (t ≠ []) && decide (toLowerStr t = toLowerStr k)
       | none => false) := by
    intro fld
    cases fld with
    | none => rfl
    | some t =>
      dsimp only
      by_cases hlt : toLowerStr t = toLowerStr k
      · rw [hlt, hself]
        simp
      · have hno : dlookup (toLowerStr t) mapping ≠ some k := by
          intro hc
          exact hlt ((hmem _ _ hc).symm)
        simp [hno, hlt]
  rw [hfld R.item_code, hfld R.original_item_code]

theorem foldPrice_lookup_eq (mapping : List (Str × Str)) (k : Str) :
    ∀ (RS : List PriceRow) (d0 : List (Str × PriceDetails)),
      dlookup k (RS.foldl (processPriceRow mapping) d0) =
        RS.foldl (fun o R => if assignHits mapping R k then some (priceRec R) else o)
          (dlookup k d0) := by
  intro RS
  induction RS with
  | nil => intro d0; rfl
  | cons R RS ih =>
    intro d0
    rw [List.foldl_cons, List.foldl_cons, ih, processPriceRow_lookup]

theorem buildMapping_val_lower (cs : List Str) (l v : Str)
    (h : dlookup l (buildCodeMapping cs).1 = some v) : toLowerStr v = l := by
  rcases mapping_mem cs ([], []) l v h with h' | h'
  · cases h'
  · obtain ⟨c, _, _, h2, h3⟩ := h'
    rw [h3]
    exact h2

theorem buildMapping_self (Q : List Str) (k : Str) (hk : k ∈ Q)
    (htr : ∀ c ∈ Q, trim c = c) (hne : ∀ c ∈ Q, c ≠ [])
    (hinjQ : ∀ a ∈ Q, ∀ b ∈ Q, toLowerStr a = toLowerStr b → a = b) :
    dlookup (toLowerStr k) (buildCodeMapping Q).1 = some k := by
  have h := mapping_self Q ([], []) k hk (by rw [htr k hk]; exact hne k hk)
    (fun c' hc' _ hlow => by
      rw [htr c' hc'] at hlow ⊢
      rw [htr k hk] at hlow ⊢
      exact hinjQ c' hc' k hk hlow)
  rw [htr k hk] at h
  exact h

/-- The price dictionary's entry under a queried code does not depend on the
other queried codes, as long as no two queried codes collide after
lowercasing: it is determined by the last matching table row. -/
theorem priceBatch_lookup (Q : List Str) (pt : List PriceRow) (k : Str) (hk : k ∈ Q)
    (htr : ∀ c ∈ Q, trim c = c) (hne : ∀ c ∈ Q, c ≠ [])
    (hinjQ : ∀ a ∈ Q, ∀ b ∈ Q, toLowerStr a = toLowerStr b → a = b) :
    dlookup k (getPriceDetailsBatch Q pt) = priceLast pt (toLowerStr k) := by
  have hQne : Q ≠ [] := by intro h; rw [h] at hk; cases hk
  have hself := buildMapping_self Q k hk htr hne hinjQ
  have hlowmem : toLowerStr k ∈ (buildCodeMapping Q).2 := by
    have h := lows_mem Q ([], []) k hk (by rw [htr k hk]; exact hne k hk)
    rw [htr k hk] at h
    exact h
  have hlne : (buildCodeMapping Q).2 ≠ [] := by
    intro h; rw [h] at hlowmem; cases hlowmem
  unfold getPriceDetailsBatch
  rw [if_neg hQne, if_neg hlne]
  rw [foldPrice_lookup_eq]
  have hstep : (fun (o : Option PriceDetails) R =>
        if assignHits (buildCodeMapping Q).1 R k then some (priceRec R) else o) =
      (fun o R => if rowHitsLo (toLowerStr k) R then some (priceRec R) else o) := by
    funext o R
    rw [assignHits_eq_rowHits _ _ _ hself (buildMapping_val_lower Q)]
  rw [hstep]
  have hfid : ((pt.filter (sqlPriceMatch (buildCodeMapping Q).2)).foldl
      (fun (o : Option PriceDetails) R =>
        if rowHitsLo (toLowerStr k) R then some (priceRec R) else o)
      (dlookup k [])) =
      pt.foldl (fun o R => if rowHitsLo (toLowerStr k) R then some (priceRec R) else o)
        (dlookup k []) := by
    refine foldl_filter_id _ _ ?_ pt (dlookup k [])
    intro R hR o
    rw [if_neg ?_]
    intro hhit
    unfold rowHitsLo at hhit
    rw [Bool.or_eq_true] at hhit
    unfold sqlPriceMatch at hR
    rw [Bool.or_eq_false_iff] at hR
    have hmem : ∀ (fld : Option Str), fieldHitsLo (toLowerStr k) fld = true →
        optLowMem fld (buildCodeMapping Q).2 = true := by
      intro fld hf
      cases fld with
      | none => cases hf
      | some t =>
        unfold fieldHitsLo at hf
        dsimp only at hf
        rw [Bool.and_eq_true, decide_eq_true_eq, decide_eq_true_eq] at hf
        show (buildCodeMapping Q).2.contains (toLowerStr t) = true
        rw [hf.2, List.contains_eq_any_beq, List.any_eq_true]
        exact ⟨toLowerStr k, hlowmem, by simp⟩
    rcases hhit with hh | hh
    · rw [hmem R.item_code hh] at hR
      cases hR.1
    · rw [hmem R.original_item_code hh] at hR
      cases hR.2
  rw [hfid]
  rfl

/-- Every key of the price dictionary is the trim of a queried code. -/
theorem priceBatch_keys (Q : List Str) (pt : List PriceRow) (k : Str) (v : PriceDetails)
    (h : dlookup k (getPriceDetailsBatch Q pt) = some v) : ∃ c ∈ Q, trim c = k := by
  unfold getPriceDetailsBatch at h
  by_cases h1 : Q = []
  · rw [if_pos h1] at h; cases h
  · rw [if_neg h1] at h
    by_cases h2 : (buildCodeMapping Q).2 = []
    · rw [if_pos h2] at h; cases h
    · rw [if_neg h2] at h
      have hs : (dlookup k ((pt.filter (sqlPriceMatch (buildCodeMapping Q).2)).foldl
          (processPriceRow (buildCodeMapping Q).1) [])).isSome = true := by
        rw [h]; rfl
      rw [foldPrice_lookup_isSome] at hs
      have hnil : (dlookup k ([] : List (Str × PriceDetails))).isSome = false := rfl
      rw [hnil, Bool.or_false, List.any_eq_true] at hs
      obtain ⟨R, _, hhit⟩ := hs
      unfold assignHits at hhit
      rw [Bool.or_eq_true] at hhit
      have hlook : ∃ t, dlookup (toLowerStr t) (buildCodeMapping Q).1 = some k := by
        rcases hhit with hh | hh
        · obtain ⟨t, _, _, ht⟩ := fieldHit_look _ _ _ hh
          exact ⟨t, ht⟩
        · obtain ⟨t, _, _, ht⟩ := fieldHit_look _ _ _ hh
          exact ⟨t, ht⟩
      obtain ⟨t, ht⟩ := hlook
      rcases mapping_mem Q ([], []) _ _ ht with h' | h'
      · cases h'
      · obtain ⟨c, hc, _, _, h3⟩ := h'
        exact ⟨c, hc, h3.symm⟩

/-- Row validation only reads the two dictionaries at the row's own trimmed
identifiers, and only reads the price dictionary when the identifier guards
pass. -/
theorem validate_congr (r : Row) (M M' : List (Str × MetaRec))
    (P P' : List (Str × PriceDetails))
    (hM : dlookup (pidOf r) M = dlookup (pidOf r) M')
    (hP : codeOf r ≠ [] → dlookup (codeOf r) P = dlookup (codeOf r) P') :
    validateAndCollateRow r M P = validateAndCollateRow r M' P' := by
  unfold validateAndCollateRow
  dsimp only
  by_cases h1 : pidOf r = []
  · simp only [if_pos h1]
  · simp only [if_neg h1]
    by_cases h2 : codeOf r = []
    · simp only [if_pos h2]
    · simp only [if_neg h2]
      rw [hM, hP h2]

/-- The chunk-independent validation outcome: the row validated against the
dictionaries built for its own singleton chunk. -/
def rowResultC (mt : List MetaRec) (pt : List PriceRow) (r : Row) : RowResult :=
  validateAndCollateRow r (chunkMeta mt [r]) (chunkPrice pt [r])

theorem chunkPrice_lookup (pt : List PriceRow) (L : List Row) (r : Row) (hr : r ∈ L)
    (hcode : codeOf r ≠ []) (hnan : codeOf r ≠ sNan)
    (hinj : ∀ a ∈ L, ∀ b ∈ L,
      toLowerStr (codeOf a) = toLowerStr (codeOf b) → codeOf a = codeOf b) :
    dlookup (codeOf r) (chunkPrice pt L) = priceLast pt (toLowerStr (codeOf r)) := by
  unfold chunkPrice
  apply priceBatch_lookup
  · rw [List.mem_filter]
    refine ⟨List.mem_map_of_mem codeOf hr, ?_⟩
    rw [Bool.and_eq_true]
    exact ⟨decide_eq_true hcode, decide_eq_true hnan⟩
  · intro c hc
    rw [List.mem_filter, List.mem_map] at hc
    obtain ⟨⟨a, _, hca⟩, _⟩ := hc
    rw [← hca]
    unfold codeOf
    exact trim_trim _
  · intro c hc
    rw [List.mem_filter] at hc
    have h := hc.2
    simp only [Bool.and_eq_true, decide_eq_true_eq] at h
    exact h.1
  · intro a ha b hb hlow
    rw [List.mem_filter, List.mem_map] at ha hb
    obtain ⟨⟨x, hx, hxa⟩, _⟩ := ha
    obtain ⟨⟨y, hy, hyb⟩, _⟩ := hb
    rw [← hxa, ← hyb] at hlow ⊢
    exact hinj x hx y hy hlow

/-- The validation outcome of a row does not depend on which chunk it was
batched into, provided no two requested item codes of the chunk collide
after lowercasing. -/
theorem validate_chunk_indep (mt : List MetaRec) (pt : List PriceRow)
    (chunk : List Row) (r : Row) (hr : r ∈ chunk)
    (hinj : ∀ a ∈ chunk, ∀ b ∈ chunk,
      toLowerStr (codeOf a) = toLowerStr (codeOf b) → codeOf a = codeOf b) :
    validateAndCollateRow r (chunkMeta mt chunk) (chunkPrice pt chunk) =
      rowResultC mt pt r := by
  unfold rowResultC
  apply validate_congr
  · unfold chunkMeta
    rw [metaBatch_lookup _ mt _ (List.mem_map_of_mem pidOf hr),
      metaBatch_lookup _ mt _ (List.mem_map_of_mem pidOf (List.mem_singleton.mpr rfl))]
  · intro hcode
    by_cases hnan : codeOf r = sNan
    · have hsing : chunkPrice pt [r] = [] := by
        unfold chunkPrice
        have hq : (([r].map codeOf).filter fun c =>
            decide (c ≠ []) && decide (c ≠ sNan)) = [] := by
          show ([codeOf r].filter fun c => decide (c ≠ []) && decide (c ≠ sNan)) = []
          rw [List.filter_cons]
          rw [if_neg (by rw [hnan]; simp)]
          rfl
        rw [hq]
        rfl
      rw [hsing]
      cases hlk : dlookup (codeOf r) (chunkPrice pt chunk) with
      | none => rfl
      | some v =>
        unfold chunkPrice at hlk
        obtain ⟨c, hc, htc⟩ := priceBatch_keys _ pt _ v hlk
        rw [List.mem_filter] at hc
        have hcnan : c ≠ sNan := by
          have h := hc.2
          simp only [Bool.and_eq_true, decide_eq_true_eq] at h
          exact h.2
        have hc1 := hc.1
        rw [List.mem_map] at hc1
        obtain ⟨a, _, hca⟩ := hc1
        have htcc : trim c = c := by
          rw [← hca]
          unfold codeOf
          exact trim_trim _
        exact absurd (by rw [← htcc, htc]; exact hnan) hcnan
    · rw [chunkPrice_lookup pt chunk r hr hcode hnan hinj,
        chunkPrice_lookup pt [r] r (List.mem_singleton.mpr rfl) hcode hnan ?_]
      intro a ha b hb _
      rw [List.mem_singleton] at ha hb
      rw [ha, hb]

/-- The accepted collated records of a row list, each row validated
chunk-independently. -/
def recsC (mt : List MetaRec) (pt : List PriceRow) (rows : List Row) : List CatRec :=
  rows.filterMap fun r =>
    match rowResultC mt pt r with
    | .accepted rec => some rec
    | .rejected _ _ => none

/-- The rejected-row count of a row list under chunk-independent
validation. -/
def rejC (mt : List MetaRec) (pt : List PriceRow) (rows : List Row) : Nat :=
  rows.countP fun r => !isAccepted (rowResultC mt pt r)

theorem recsC_mem {mt : List MetaRec} {pt : List PriceRow} {rows : List Row}
    {rec : CatRec} (h : rec ∈ recsC mt pt rows) :
    ∃ r ∈ rows, rowResultC mt pt r = .accepted rec := by
  unfold recsC at h
  rw [List.mem_filterMap] at h
  obtain ⟨r, hr, hf⟩ := h
  refine ⟨r, hr, ?_⟩
  cases hv : rowResultC mt pt r with
  | accepted rec' => rw [hv] at hf; cases hf; rfl
  | rejected ns d => rw [hv] at hf; cases hf

theorem recsC_mem_intro {mt : List MetaRec} {pt : List PriceRow} {rows : List Row}
    {r : Row} (hr : r ∈ rows) {rec : CatRec}
    (h : rowResultC mt pt r = .accepted rec) : rec ∈ recsC mt pt rows := by
  unfold recsC
  rw [List.mem_filterMap]
  exact ⟨r, hr, by rw [h]⟩

theorem rowResultC_accepted_ids {mt : List MetaRec} {pt : List PriceRow} {r : Row}
    {rec : CatRec} (h : rowResultC mt pt r = .accepted rec) :
    rec.product_id = pidOf r ∧ rec.dist_item_code = codeOf r ∧
      pidOf r ≠ [] ∧ codeOf r ≠ [] := by
  unfold rowResultC at h
  exact accepted_ids h

theorem collateChunk_indep (mt : List MetaRec) (pt : List PriceRow) (chunk : List Row)
    (hinj : ∀ a ∈ chunk, ∀ b ∈ chunk,
      toLowerStr (codeOf a) = toLowerStr (codeOf b) → codeOf a = codeOf b) :
    collateChunk mt pt chunk = (recsC mt pt chunk, rejC mt pt chunk) := by
  rw [collateChunk_eq, Prod.mk.injEq]
  constructor
  · unfold chunkRecs recsC
    apply filterMap_congr_mem
    intro r hrm
    rw [validate_chunk_indep mt pt chunk r hrm hinj]
  · unfold chunkRej rejC
    apply countP_congr_mem
    intro r hrm
    rw [validate_chunk_indep mt pt chunk r hrm hinj]

/-- Under an always-committing writer, the chunk loop appends exactly the
chunk-independently accepted records of all processed rows, in order, and
counts exactly the rejected rows. -/
theorem foldChunks_char (mt : List MetaRec) (pt : List PriceRow)
    {oracle : List CatRec → List CatRec → Bool} (horacle : ∀ db b, oracle db b = true) :
    ∀ (cs : List (List Row)) (st : OrchState),
      (∀ c ∈ cs, ∀ a ∈ c, ∀ b ∈ c,
        toLowerStr (codeOf a) = toLowerStr (codeOf b) → codeOf a = codeOf b) →
      (cs.foldl (processChunk mt pt oracle) st).db = st.db ++ recsC mt pt cs.flatten ∧
        (cs.foldl (processChunk mt pt oracle) st).successful_inserts =
          st.successful_inserts + (recsC mt pt cs.flatten).length ∧
        (cs.foldl (processChunk mt pt oracle) st).validation_failures =
          st.validation_failures + rejC mt pt cs.flatten := by
  intro cs
  induction cs with
  | nil =>
    intro st _
    refine ⟨by simp [recsC], by simp [recsC], by simp [rejC]⟩
  | cons c cs ih =>
    intro st hinj
    rw [List.foldl_cons, List.flatten_cons]
    obtain ⟨h1, h2, h3⟩ := ih (processChunk mt pt oracle st c)
      (fun c' hc' => hinj c' (List.mem_cons_of_mem c hc'))
    obtain ⟨g1, g2, g3⟩ := processChunk_true mt pt horacle st c
    have hcc := collateChunk_indep mt pt c (hinj c (List.mem_cons_self c cs))
    have hcc1 : (collateChunk mt pt c).1 = recsC mt pt c := by rw [hcc]
    have hcc2 : (collateChunk mt pt c).2 = rejC mt pt c := by rw [hcc]
    have hra : recsC mt pt (c ++ cs.flatten) = recsC mt pt c ++ recsC mt pt cs.flatten := by
      unfold recsC
      rw [List.filterMap_append]
    have hja : rejC mt pt (c ++ cs.flatten) = rejC mt pt c + rejC mt pt cs.flatten := by
      unfold rejC
      rw [List.countP_append]
    refine ⟨?_, ?_, ?_⟩
    · rw [h1, g1, hcc1, hra, List.append_assoc]
    · rw [h2, g2, hcc1, hra, List.length_append]
      omega
    · rw [h3, g3, hcc2, hja]
      omega

/-- The ids the existence check reports for a (deduplicated) input. -/
def existingOf (db0 : List CatRec) (df : List Row) : List Str :=
  checkExistingProducts db0 ((dedupeRows df).map (fun r => r.product_id))

/-- The deduplicated rows surviving the existing-id filter: the rows the
chunk loop actually processes. -/
def survivors (db0 : List CatRec) (df : List Row) : List Row :=
  (dedupeRows df).filter (keepRow (existingOf db0 df))

/-- The full run under an always-committing writer: the final store is the
initial store plus the chunk-independently accepted records of the
surviving rows, and the counters are the matching lengths. -/
theorem run_char (df : List Row) (mt : List MetaRec) (pt : List PriceRow)
    (db0 : List CatRec) (n : Nat) (hn : 0 < n)
    {oracle : List CatRec → List CatRec → Bool} (horacle : ∀ db b, oracle db b = true)
    (hinj : ∀ a ∈ df, ∀ b ∈ df,
      toLowerStr (codeOf a) = toLowerStr (codeOf b) → codeOf a = codeOf b) :
    (collateAndMigrate df mt pt oracle db0 n).2 =
        db0 ++ recsC mt pt (survivors db0 df) ∧
      (collateAndMigrate df mt pt oracle db0 n).1.successful_inserts =
        (recsC mt pt (survivors db0 df)).length ∧
      (collateAndMigrate df mt pt oracle db0 n).1.validation_failures =
        rejC mt pt (survivors db0 df) ∧
      (collateAndMigrate df mt pt oracle db0 n).1.existing_products =
        (existingOf db0 df).length := by
  unfold collateAndMigrate
  dsimp only
  rw [d1_eq]
  obtain ⟨H1, H2, H3⟩ := foldChunks_char mt pt horacle
    (chunksOf n ((dedupeRows df).filter
      (keepRow (checkExistingProducts db0 ((dedupeRows df).map (fun r => r.product_id))))))
    ⟨db0, 0, 0, 0, if dupMarkedCount df ≠ 0 then [RunError.duplicateIdsFound] else []⟩
    (fun c hc a ha b hb => hinj a
      (mem_dedupeRows (List.mem_filter.mp (mem_chunksOf hn hc ha)).1)
      b (mem_dedupeRows (List.mem_filter.mp (mem_chunksOf hn hc hb)).1))
  rw [chunksOf_flatten hn] at H1 H2 H3
  dsimp only at H1 H2 H3
  refine ⟨H1, by rw [H2]; exact Nat.zero_add _, by rw [H3]; exact Nat.zero_add _, rfl⟩

/-- Helper: a row whose product_id cell is an already-trimmed string has
that string as its trimmed pid. -/
theorem pid_cell (r : Row) (s : Str) (hcell : r.product_id = some (Cell.str s))
    (hts : trim s = s) : pidOf r = s := by
  unfold pidOf
  rw [hcell]
  exact hts

theorem keepRow_append (r : Row) (s : Str) (hcell : r.product_id = some (Cell.str s))
    (E P : List Str) :
    keepRow (E ++ P) r = (keepRow E r && !(P.contains s)) := by
  unfold keepRow
  rw [hcell]
  dsimp only
  rw [contains_append, Bool.not_or]

/-- After a first run whose inserts all committed, the existence check
reports exactly the previously-existing ids followed by the ids of every
record the first run wrote. -/
theorem existing_second (df : List Row) (mt : List MetaRec) (pt : List PriceRow)
    (db0 : List CatRec)
    (htrim : ∀ r ∈ df, ∃ s, r.product_id = some (Cell.str s) ∧ trim s = s) :
    existingOf (db0 ++ recsC mt pt (survivors db0 df)) df =
      existingOf db0 df ++ (recsC mt pt (survivors db0 df)).map (fun c => c.product_id) := by
  unfold existingOf checkExistingProducts
  rw [List.filter_append, List.map_append]
  congr 1
  have hall : (recsC mt pt (survivors db0 df)).filter
      (fun c => (((dedupeRows df).map (fun r => r.product_id)).contains
        (some (Cell.str c.product_id)))) =
      recsC mt pt (survivors db0 df) := by
    rw [List.filter_eq_self]
    intro rec hrec
    obtain ⟨r, hrS, hres⟩ := recsC_mem hrec
    have hrd : r ∈ dedupeRows df := (List.mem_filter.mp hrS).1
    obtain ⟨s, hc, hts⟩ := htrim r (mem_dedupeRows hrd)
    have hpid : rec.product_id = s := by
      rw [(rowResultC_accepted_ids hres).1]
      exact pid_cell r s hc hts
    rw [List.contains_eq_any_beq, List.any_eq_true]
    refine ⟨r.product_id, List.mem_map_of_mem (fun r => r.product_id) hrd, ?_⟩
    rw [hc, hpid]
    simp
  rw [hall]

/-- For a surviving row, membership of its pid among the first run's written
ids is exactly acceptance of the row. -/
theorem contains_eq_accepted (df : List Row) (mt : List MetaRec) (pt : List PriceRow)
    (db0 : List CatRec)
    (htrim : ∀ r ∈ df, ∃ s, r.product_id = some (Cell.str s) ∧ trim s = s)
    (r : Row) (hr : r ∈ survivors db0 df) :
    ((recsC mt pt (survivors db0 df)).map (fun c => c.product_id)).contains (pidOf r) =
      isAccepted (rowResultC mt pt r) := by
  have hrd : r ∈ dedupeRows df := (List.mem_filter.mp hr).1
  cases hacc : rowResultC mt pt r with
  | accepted rec =>
    have hmem : rec ∈ recsC mt pt (survivors db0 df) := recsC_mem_intro hr hacc
    have hpid : rec.product_id = pidOf r := (rowResultC_accepted_ids hacc).1
    show _ = true
    rw [List.contains_eq_any_beq, List.any_eq_true]
    refine ⟨rec.product_id, List.mem_map_of_mem (fun c => c.product_id) hmem, ?_⟩
    rw [hpid]
    simp
  | rejected ns dd =>
    show _ = false
    rw [Bool.eq_false_iff]
    intro hcon
    rw [List.contains_eq_any_beq, List.any_eq_true] at hcon
    obtain ⟨x, hx, hbeq⟩ := hcon
    rw [List.mem_map] at hx
    obtain ⟨rec, hrec, hxr⟩ := hx
    have hxeq : pidOf r = x := eq_of_beq hbeq
    obtain ⟨r', hr', hres'⟩ := recsC_mem hrec
    have hpid' : rec.product_id = pidOf r' := (rowResultC_accepted_ids hres').1
    have hpp : pidOf r' = pidOf r := by
      rw [← hpid', hxr, ← hxeq]
    have hrd' : r' ∈ dedupeRows df := (List.mem_filter.mp hr').1
    obtain ⟨s, hc, hts⟩ := htrim r (mem_dedupeRows hrd)
    obtain ⟨s', hc', hts'⟩ := htrim r' (mem_dedupeRows hrd')
    have hs : s' = s := by
      rw [← pid_cell r s hc hts, ← pid_cell r' s' hc' hts']
      exact hpp
    have hcells : r'.product_id = r.product_id := by
      rw [hc, hc', hs]
    have hrr : r' = r := map_nodup_inj (dedupe_pids_nodup df) r' hrd' r hrd hcells
    rw [hrr, hacc] at hres'
    cases hres'

/-- The second run's surviving rows are exactly the first run's rejected
surviving rows. -/
theorem survivors_second (df : List Row) (mt : List MetaRec) (pt : List PriceRow)
    (db0 : List CatRec)
    (htrim : ∀ r ∈ df, ∃ s, r.product_id = some (Cell.str s) ∧ trim s = s) :
    survivors (db0 ++ recsC mt pt (survivors db0 df)) df =
      (survivors db0 df).filter (fun r => !isAccepted (rowResultC mt pt r)) := by
  have hE2 := existing_second df mt pt db0 htrim
  show (dedupeRows df).filter
      (keepRow (existingOf (db0 ++ recsC mt pt (survivors db0 df)) df)) = _
  rw [hE2]
  have hkeepAll : ∀ r ∈ dedupeRows df,
      keepRow (existingOf db0 df ++
          (recsC mt pt (survivors db0 df)).map (fun c => c.product_id)) r =
        (keepRow (existingOf db0 df) r &&
          !(((recsC mt pt (survivors db0 df)).map (fun c => c.product_id)).contains
            (pidOf r))) := by
    intro r hrd
    obtain ⟨s, hc, hts⟩ := htrim r (mem_dedupeRows hrd)
    rw [keepRow_append r s hc, pid_cell r s hc hts]
  rw [filter_congr_mem _ _ _ hkeepAll]
  rw [filter_and_split]
  show (survivors db0 df).filter _ = _
  apply filter_congr_mem
  intro r hrS
  rw [contains_eq_accepted df mt pt db0 htrim r hrS]

/-- Claim C4, counterexample.  A single valid row whose product_id cell
carries a leading space is inserted by the first run under its trimmed id;
the existence check of the second run queries the raw, untrimmed cell
values, finds nothing, reports zero existing products, and the second run
validates and inserts the same record again: the store ends with two
records and the claimed zero-new-inserts idempotence fails. -/
theorem c4_counterexample :
    (collateAndMigrate
        [⟨some (Cell.str [' ', 'P', '1']), some (Cell.str ['x', '1']), none, none⟩]
        [⟨['P', '1'], none, none, []⟩]
        [⟨some ['x', '1'], none, some 5, none, none, none, none, none, none⟩]
        (fun _ _ => true) [] 1).1.successful_inserts = 1 ∧
      (collateAndMigrate
        [⟨some (Cell.str [' ', 'P', '1']), some (Cell.str ['x', '1']), none, none⟩]
        [⟨['P', '1'], none, none, []⟩]
        [⟨some ['x', '1'], none, some 5, none, none, none, none, none, none⟩]
        (fun _ _ => true)
        ((collateAndMigrate
          [⟨some (Cell.str [' ', 'P', '1']), some (Cell.str ['x', '1']), none, none⟩]
          [⟨['P', '1'], none, none, []⟩]
          [⟨some ['x', '1'], none, some 5, none, none, none, none, none, none⟩]
          (fun _ _ => true) [] 1).2) 1).1.successful_inserts = 1 ∧
      (collateAndMigrate
        [⟨some (Cell.str [' ', 'P', '1']), some (Cell.str ['x', '1']), none, none⟩]
        [⟨['P', '1'], none, none, []⟩]
        [⟨some ['x', '1'], none, some 5, none, none, none, none, none, none⟩]
        (fun _ _ => true)
        ((collateAndMigrate
          [⟨some (Cell.str [' ', 'P', '1']), some (Cell.str ['x', '1']), none, none⟩]
          [⟨['P', '1'], none, none, []⟩]
          [⟨some ['x', '1'], none, some 5, none, none, none, none, none, none⟩]
          (fun _ _ => true) [] 1).2) 1).1.existing_products = 0 := by
  decide

/-- Claim C4, amended.  When every product_id cell is an already-trimmed
string, no two requested item codes of the input collide after lowercasing,
and every batch insert commits, a second run on the same input against the
store left by the first run performs zero new inserts, leaves the store
unchanged, reports the same validation failures, and counts every record
the first run wrote (in addition to the previously existing ones) under
existing_products.  Without the trimmed-cell hypothesis the existence check
compares raw cells against trimmed stored ids and re-inserts, as the
counterexample shows. -/
theorem c4_amended (df : List Row) (mt : List MetaRec) (pt : List PriceRow)
    (db0 : List CatRec) (n : Nat) (hn : 0 < n)
    {oracle : List CatRec → List CatRec → Bool} (horacle : ∀ a b, oracle a b = true)
    (htrim : ∀ r ∈ df, ∃ s, r.product_id = some (Cell.str s) ∧ trim s = s)
    (hinj : ∀ a ∈ df, ∀ b ∈ df,
      toLowerStr (codeOf a) = toLowerStr (codeOf b) → codeOf a = codeOf b) :
    (collateAndMigrate df mt pt oracle
        ((collateAndMigrate df mt pt oracle db0 n).2) n).1.successful_inserts = 0 ∧
      (collateAndMigrate df mt pt oracle
        ((collateAndMigrate df mt pt oracle db0 n).2) n).2 =
        (collateAndMigrate df mt pt oracle db0 n).2 ∧
      (collateAndMigrate df mt pt oracle
        ((collateAndMigrate df mt pt oracle db0 n).2) n).1.validation_failures =
        (collateAndMigrate df mt pt oracle db0 n).1.validation_failures ∧
      (collateAndMigrate df mt pt oracle
        ((collateAndMigrate df mt pt oracle db0 n).2) n).1.existing_products =
        (collateAndMigrate df mt pt oracle db0 n).1.existing_products +
          (collateAndMigrate df mt pt oracle db0 n).1.successful_inserts := by
  obtain ⟨R1db, R1succ, R1val, R1ex⟩ := run_char df mt pt db0 n hn horacle hinj
  obtain ⟨R2db, R2succ, R2val, R2ex⟩ :=
    run_char df mt pt (db0 ++ recsC mt pt (survivors db0 df)) n hn horacle hinj
  have hS2 := survivors_second df mt pt db0 htrim
  have hE2 := existing_second df mt pt db0 htrim
  have hrecs2 : recsC mt pt (survivors (db0 ++ recsC mt pt (survivors db0 df)) df) = [] := by
    rw [hS2]
    unfold recsC
    apply filterMap_none
    intro r hrm
    rw [List.mem_filter] at hrm
    have hb := hrm.2
    rw [Bool.not_eq_true'] at hb
    cases hres : rowResultC mt pt r with
    | accepted rec => rw [hres] at hb; cases hb
    | rejected ns d => rfl
  refine ⟨?_, ?_, ?_, ?_⟩
  · rw [R1db, R2succ, hrecs2]
    rfl
  · rw [R1db, R2db, hrecs2, List.append_nil]
  · rw [R1db, R2val, R1val, hS2]
    unfold rejC
    exact countP_filter_self _ _
  · rw [R1db, R2ex, hE2, List.length_append, R1ex, R1succ, List.length_map]

/-- Claim C4 witness: the amended theorem at a one-row input with a trimmed
product_id cell, one matching metadata row and one matching price row, with
a committing writer, batch size 1 and an empty initial store. -/
theorem c4_witness :
    (collateAndMigrate
        [⟨some (Cell.str ['P', '1']), some (Cell.str ['x', '1']), none, none⟩]
        [⟨['P', '1'], none, none, []⟩]
        [⟨some ['x', '1'], none, some 5, none, none, none, none, none, none⟩]
        (fun _ _ => true)
        ((collateAndMigrate
          [⟨some (Cell.str ['P', '1']), some (Cell.str ['x', '1']), none, none⟩]
          [⟨['P', '1'], none, none, []⟩]
          [⟨some ['x', '1'], none, some 5, none, none, none, none, none, none⟩]
          (fun _ _ => true) [] 1).2) 1).1.successful_inserts = 0 ∧
      (collateAndMigrate
        [⟨some (Cell.str ['P', '1']), some (Cell.str ['x', '1']), none, none⟩]
        [⟨['P', '1'], none, none, []⟩]
        [⟨some ['x', '1'], none, some 5, none, none, none, none, none, none⟩]
        (fun _ _ => true)
        ((collateAndMigrate
          [⟨some (Cell.str ['P', '1']), some (Cell.str ['x', '1']), none, none⟩]
          [⟨['P', '1'], none, none, []⟩]
          [⟨some ['x', '1'], none, some 5, none, none, none, none, none, none⟩]
          (fun _ _ => true) [] 1).2) 1).2 =
        (collateAndMigrate
          [⟨some (Cell.str ['P', '1']), some (Cell.str ['x', '1']), none, none⟩]
          [⟨['P', '1'], none, none, []⟩]
          [⟨some ['x', '1'], none, some 5, none, none, none, none, none, none⟩]
          (fun _ _ => true) [] 1).2 := by
  have h := c4_amended
    [⟨some (Cell.str ['P', '1']), some (Cell.str ['x', '1']), none, none⟩]
    [⟨['P', '1'], none, none, []⟩]
    [⟨some ['x', '1'], none, some 5, none, none, none, none, none, none⟩]
    [] 1 (by decide) (fun _ _ => rfl)
    (by
      intro r hr
      rw [List.mem_singleton] at hr
      rw [hr]
      exact ⟨['P', '1'], rfl, by decide⟩)
    (by
      intro a ha b hb _
      rw [List.mem_singleton] at ha hb
      rw [ha, hb])
  exact ⟨h.1, h.2.1⟩

end CMS
